import Mathlib

set_option autoImplicit false

/-!
# Verification of the workflow procedure-hierarchy core

Shallow embedding of `src/frontend/components/recipes/workflow/types.ts` and
the tree/session logic of `WorkflowEditor.tsx`:
the ISA-88 hierarchy tree, the per-level canvas state, the flatten/rebuild pair
(`treeToWorkflow`, `workflowToTree`, `workflowToCanvasStateMap`), the immutable
insertion helper `cloneAndInsert`, the editor's add-child operation, and the
edit session's dirty/save protocol.

JavaScript `Record<string, T>` objects and `Map`s are modelled as association
lists with in-place replacement on key collision (this matches JS object
insertion-order semantics, which is what `JSON.stringify`-based dirty
comparison observes).  TS numbers appearing here are integers (layout
constants, sibling orders) and are modelled as `Int`/`Nat`.
-/

/-- Association-list read, modelling `obj[k]` / `Map.get`. -/
def recGet {α : Type} (m : List (String × α)) (k : String) : Option α :=
  (m.find? (fun p => decide (p.1 = k))).map (fun p => p.2)

/-- Association-list write, modelling `obj[k] = v`: replaces in place if the
key exists (JS objects keep the original insertion position), appends
otherwise. -/
def recSet {α : Type} (m : List (String × α)) (k : String) (v : α) :
    List (String × α) :=
  match m with
  | [] => [(k, v)]
  | (k', v') :: rest =>
      if k' = k then (k, v) :: rest else (k', v') :: recSet rest k v

/-! ## Data model (`types.ts`) -/

/-- `HierarchyNodeType` from `types.ts`. -/
inductive HierarchyNodeType where
  | RECIPE
  | PROCEDURE
  | UNIT_PROCEDURE
  | OPERATION
  | PHASE
deriving DecidableEq, Repr

open HierarchyNodeType

/-- `ISA88_CHILD_TYPE` from `types.ts`: which child type each level produces
(`none` = leaf). -/
def ISA88_CHILD_TYPE : HierarchyNodeType → Option HierarchyNodeType
  | RECIPE => some PROCEDURE
  | PROCEDURE => some UNIT_PROCEDURE
  | UNIT_PROCEDURE => some OPERATION
  | OPERATION => some PHASE
  | PHASE => none

/-- An XYFlow position `{ x, y }`. -/
structure Position where
  x : Int
  y : Int
deriving DecidableEq, Repr

/-- The recursive `HierarchyNode` interface from `types.ts`. -/
inductive HierarchyNode where
  | mk (id : String) (name : String) (type : HierarchyNodeType)
      (children : List HierarchyNode)
deriving Repr

def HierarchyNode.id : HierarchyNode → String
  | .mk i _ _ _ => i

def HierarchyNode.name : HierarchyNode → String
  | .mk _ n _ _ => n

def HierarchyNode.type : HierarchyNode → HierarchyNodeType
  | .mk _ _ t _ => t

def HierarchyNode.children : HierarchyNode → List HierarchyNode
  | .mk _ _ _ cs => cs

/-- Strong induction principle for the nested inductive `HierarchyNode`. -/
theorem HierarchyNode.ind' (P : HierarchyNode → Prop)
    (h : ∀ i n ty cs, (∀ c ∈ cs, P c) → P (.mk i n ty cs)) : ∀ t, P t
  | .mk i n ty cs => h i n ty cs (fun c hc => HierarchyNode.ind' P h c)
decreasing_by
  have := List.sizeOf_lt_of_mem hc
  simp only [HierarchyNode.mk.sizeOf_spec]
  omega

mutual

/-- Structural equality test for trees (decidable equality helper). -/
def hnBeq : HierarchyNode → HierarchyNode → Bool
  | .mk i n ty cs, .mk i' n' ty' cs' =>
      decide (i = i') && decide (n = n') && decide (ty = ty') && hnBeqList cs cs'

def hnBeqList : List HierarchyNode → List HierarchyNode → Bool
  | [], [] => true
  | c :: cs, c' :: cs' => hnBeq c c' && hnBeqList cs cs'
  | _, _ => false

end

theorem hnBeq_iff : ∀ a b : HierarchyNode, hnBeq a b = true ↔ a = b := by
  intro a
  induction a using HierarchyNode.ind' with
  | h i n ty cs ih =>
      intro b
      cases b with
      | mk i' n' ty' cs' =>
          simp only [hnBeq, Bool.and_eq_true, decide_eq_true_eq,
            HierarchyNode.mk.injEq]
          constructor
          · rintro ⟨⟨⟨h1, h2⟩, h3⟩, h4⟩
            refine ⟨h1, h2, h3, ?_⟩
            clear h1 h2 h3
            induction cs generalizing cs' with
            | nil => cases cs' with
              | nil => rfl
              | cons => simp [hnBeqList] at h4
            | cons c rest ihl =>
                cases cs' with
                | nil => simp [hnBeqList] at h4
                | cons c' rest' =>
                    simp only [hnBeqList, Bool.and_eq_true] at h4
                    have hc := (ih c (by simp)) c'
                    rw [List.cons_eq_cons]
                    exact ⟨hc.mp h4.1,
                      ihl (fun x hx => ih x (by simp [hx])) rest' h4.2⟩
          · rintro ⟨h1, h2, h3, h4⟩
            subst h1; subst h2; subst h3; subst h4
            refine ⟨⟨⟨rfl, rfl⟩, rfl⟩, ?_⟩
            induction cs with
            | nil => rfl
            | cons c rest ihl =>
                simp only [hnBeqList, Bool.and_eq_true]
                exact ⟨((ih c (by simp)) c).mpr rfl,
                  ihl (fun x hx => ih x (by simp [hx]))⟩

instance : DecidableEq HierarchyNode := fun a b =>
  decidable_of_iff (hnBeq a b = true) (hnBeq_iff a b)

/-- `WorkflowEdge` from `types.ts`. -/
structure WorkflowEdge where
  id : String
  source : String
  target : String
deriving DecidableEq, Repr

/-- `CanvasLevelState` from `types.ts` (per-parent canvas snapshot). -/
structure CanvasLevelState where
  placedIds : List String
  nodePositions : List (String × Position)
  edges : List WorkflowEdge
deriving DecidableEq, Repr

/-- The `Record<string, CanvasLevelState>` map keyed by parent node id. -/
abbrev CanvasStateMap := List (String × CanvasLevelState)

/-- `WorkflowNode` from `types.ts` (flat persisted node record). -/
structure WorkflowNode where
  id : String
  name : String
  type : HierarchyNodeType
  parentId : Option String
  order : Int
  position : Position
  placed : Bool
deriving DecidableEq, Repr

/-- `ProcedureLogicWorkflow` from `types.ts`. -/
structure ProcedureLogicWorkflow where
  nodes : List WorkflowNode
  edges : List WorkflowEdge
deriving DecidableEq, Repr

/-! ## Flatten (`treeToWorkflow`) -/

/-- Layout constants `CENTER_X`, `START_Y`, `NODE_GAP_Y` combined: the
deterministic fallback position for sibling order `o`
(`{x: CENTER_X, y: START_Y + o * NODE_GAP_Y}`). -/
def fallbackPos (o : Int) : Position :=
  { x := 300, y := 40 + o * 120 }

/-- The flat record `visit` pushes for one tree node: `placed` is
`parentId === null || (parentCanvas?.placedIds.includes(node.id) ?? false)`,
`position` is `parentCanvas?.nodePositions[node.id] ?? fallback`. -/
def mkRecord (csm : CanvasStateMap) (pid : Option String) (i : Nat)
    (t : HierarchyNode) : WorkflowNode :=
  let parentCanvas : Option CanvasLevelState :=
    match pid with
    | none => none
    | some p => recGet csm p
  { id := t.id, name := t.name, type := t.type, parentId := pid,
    order := (i : Int),
    position :=
      (parentCanvas.bind (fun s => recGet s.nodePositions t.id)).getD
        (fallbackPos (i : Int)),
    placed :=
      match pid with
      | none => true
      | some _ => (parentCanvas.map (fun s => s.placedIds.contains t.id)).getD false }

mutual

/-- Node records emitted by `treeToWorkflow`'s `visit`, in push order
(pre-order). -/
def flatNodes (csm : CanvasStateMap) (pid : Option String) (i : Nat) :
    HierarchyNode → List WorkflowNode
  | .mk nid nm ty cs =>
      mkRecord csm pid i (.mk nid nm ty cs) :: flatNodesList csm nid 0 cs

/-- `node.children.forEach((child, idx) => visit(child, node.id, idx))`. -/
def flatNodesList (csm : CanvasStateMap) (p : String) (i : Nat) :
    List HierarchyNode → List WorkflowNode
  | [] => []
  | c :: rest => flatNodes csm (some p) i c ++ flatNodesList csm p (i + 1) rest

end

mutual

/-- Edge records emitted by `visit`: each visited node contributes the edges of
its own canvas level (if that level exists), then recurses. -/
def flatEdges (csm : CanvasStateMap) : HierarchyNode → List WorkflowEdge
  | .mk nid _ _ cs =>
      (match recGet csm nid with
       | some s => s.edges
       | none => []) ++ flatEdgesList csm cs

def flatEdgesList (csm : CanvasStateMap) : List HierarchyNode → List WorkflowEdge
  | [] => []
  | c :: rest => flatEdges csm c ++ flatEdgesList csm rest

end

/-- `treeToWorkflow` from `types.ts`: flatten the tree plus canvas-state map
into a `ProcedureLogicWorkflow` (`visit(root, null, 0)`). -/
def treeToWorkflow (root : HierarchyNode) (canvasStateMap : CanvasStateMap) :
    ProcedureLogicWorkflow :=
  { nodes := flatNodes canvasStateMap none 0 root,
    edges := flatEdges canvasStateMap root }

/-! ## Rebuild (`workflowToTree`) -/

/-- The child records `buildNode` selects for a node id: flat records whose
`parentId` equals it, sorted ascending by `order` (JS `Array.sort` with
`(a, b) => a.order - b.order` is stable; `insertionSort` is the stable sort). -/
def childRecordsOf (ns : List WorkflowNode) (pid : String) : List WorkflowNode :=
  List.insertionSort (fun a b => a.order ≤ b.order)
    (ns.filter (fun n => decide (n.parentId = some pid)))

/-- `buildNode` from `workflowToTree`.  The TS recursion has no termination
guard and diverges on documents whose parent relation is cyclic; the embedding
makes it total with a fuel argument (children are cut off when fuel runs out,
which only happens where the source diverges — see `buildFits`). -/
def buildNode (ns : List WorkflowNode) : Nat → WorkflowNode → HierarchyNode
  | 0, flat => .mk flat.id flat.name flat.type []
  | fuel + 1, flat =>
      .mk flat.id flat.name flat.type
        ((childRecordsOf ns flat.id).map (buildNode ns fuel))

/-- `true` iff the `buildNode` recursion from `flat` completes within `fuel`
levels, i.e. iff the TS recursion terminates (any descending chain longer than
`ns.length` repeats a record and therefore loops forever). -/
def buildFits (ns : List WorkflowNode) : Nat → WorkflowNode → Bool
  | 0, _ => false
  | fuel + 1, flat => (childRecordsOf ns flat.id).all (buildFits ns fuel)

/-- `workflowToTree` from `types.ts`: look up the root record by id (the TS
`byId` map is written in list order, so a duplicated id resolves to the last
record) and rebuild recursively. -/
def workflowToTree (workflow : ProcedureLogicWorkflow) (rootId : String) :
    Option HierarchyNode :=
  (workflow.nodes.reverse.find? (fun n => decide (n.id = rootId))).map
    (buildNode workflow.nodes (workflow.nodes.length + 1))

/-! ## Rebuild (`workflowToCanvasStateMap`) -/

def emptyLevel : CanvasLevelState :=
  { placedIds := [], nodePositions := [], edges := [] }

/-- One step of the first loop of `workflowToCanvasStateMap`: skip the root
record, create the parent's level if absent, and fold a placed record into the
level's placed-id set and position table. -/
def wcsmNodeStep (m : CanvasStateMap) (wn : WorkflowNode) : CanvasStateMap :=
  match wn.parentId with
  | none => m
  | some p =>
      let m1 := match recGet m p with
        | some _ => m
        | none => recSet m p emptyLevel
      let s := (recGet m1 p).getD emptyLevel
      if wn.placed then
        recSet m1 p
          { s with placedIds := s.placedIds ++ [wn.id],
                   nodePositions := recSet s.nodePositions wn.id wn.position }
      else m1

/-- The `nodeParent` map lookup: the `parentId` of the last record with the
given id among records whose `parentId` is non-null (`Map.set` overwrites). -/
def lastParentOf (ns : List WorkflowNode) (sid : String) : Option String :=
  ((ns.filter (fun n => n.parentId.isSome)).reverse.find?
      (fun n => decide (n.id = sid))).bind (fun n => n.parentId)

/-- One step of the edge loop: resolve the level of the edge's source via
`nodeParent`; `if (!parentId) continue` drops the edge when the lookup fails
*or returns the empty string* (JS falsiness); otherwise append the edge to that
level, creating it if absent. -/
def wcsmEdgeStep (ns : List WorkflowNode) (m : CanvasStateMap)
    (we : WorkflowEdge) : CanvasStateMap :=
  match lastParentOf ns we.source with
  | none => m
  | some p =>
      if p = "" then m
      else
        let m1 := match recGet m p with
          | some _ => m
          | none => recSet m p emptyLevel
        let s := (recGet m1 p).getD emptyLevel
        recSet m1 p { s with edges := s.edges ++ [we] }

/-- `workflowToCanvasStateMap` from `types.ts`. -/
def workflowToCanvasStateMap (workflow : ProcedureLogicWorkflow) :
    CanvasStateMap :=
  workflow.edges.foldl (wcsmEdgeStep workflow.nodes)
    (workflow.nodes.foldl wcsmNodeStep [])

/-! ## Tree helpers (`findNode`) and editor operations -/

mutual

/-- `findNode` from `types.ts`: pre-order depth-first search by id. -/
def findNode : HierarchyNode → String → Option HierarchyNode
  | .mk i n ty cs, q =>
      if i = q then some (.mk i n ty cs) else findNodeList cs q

def findNodeList : List HierarchyNode → String → Option HierarchyNode
  | [], _ => none
  | c :: rest, q =>
      match findNode c q with
      | some found => some found
      | none => findNodeList rest q

end

mutual

/-- `cloneAndInsert` from `WorkflowEditor.tsx`: append `newChild` to the
children of every outermost node whose id is `parentId` (the match stops the
recursion), rebuilding the spine. -/
def cloneAndInsert (node : HierarchyNode) (parentId : String)
    (newChild : HierarchyNode) : HierarchyNode :=
  match node with
  | .mk i n ty cs =>
      if i = parentId then .mk i n ty (cs ++ [newChild])
      else .mk i n ty (cloneAndInsertList cs parentId newChild)

def cloneAndInsertList (cs : List HierarchyNode) (parentId : String)
    (newChild : HierarchyNode) : List HierarchyNode :=
  match cs with
  | [] => []
  | c :: rest =>
      cloneAndInsert c parentId newChild :: cloneAndInsertList rest parentId newChild

end

/-- JavaScript `String.prototype.trim`: strip leading and trailing whitespace
(kernel-computable counterpart of `String.trim`). -/
def trimStr (s : String) : String :=
  ⟨((s.data.dropWhile Char.isWhitespace).reverse.dropWhile Char.isWhitespace).reverse⟩

/-- The tree transition of `handleConfirmAdd` in `WorkflowEditor.tsx`: look up
the selected node, compute the child type from the ISA-88 table, and insert a
new leaf child via `cloneAndInsert`; any failing guard (`!selectedNode`,
`!childType`, blank id or name after trimming) leaves the tree unchanged. -/
def confirmAdd (tree : HierarchyNode) (selectedId newElementId newElementName : String) :
    HierarchyNode :=
  match findNode tree selectedId with
  | none => tree
  | some selectedNode =>
      match ISA88_CHILD_TYPE selectedNode.type with
      | none => tree
      | some childType =>
          if trimStr newElementId = "" ∨ trimStr newElementName = "" then tree
          else
            cloneAndInsert tree selectedId
              (.mk (trimStr newElementId) (trimStr newElementName) childType [])

/-! ## Derived tree measures used in statements and proofs -/

mutual

/-- Pre-order list of all node ids in a tree. -/
def treeIds : HierarchyNode → List String
  | .mk i _ _ cs => i :: treeIdsList cs

def treeIdsList : List HierarchyNode → List String
  | [] => []
  | c :: rest => treeIds c ++ treeIdsList rest

end

mutual

/-- Pre-order list of all subtrees of a tree (the tree itself included). -/
def allSubtrees : HierarchyNode → List HierarchyNode
  | .mk i n ty cs => .mk i n ty cs :: allSubtreesList cs

def allSubtreesList : List HierarchyNode → List HierarchyNode
  | [] => []
  | c :: rest => allSubtrees c ++ allSubtreesList rest

end

mutual

/-- Height of a tree (number of levels; at least 1). -/
def heightH : HierarchyNode → Nat
  | .mk _ _ _ cs => heightHList cs + 1

def heightHList : List HierarchyNode → Nat
  | [] => 0
  | c :: rest => max (heightH c) (heightHList rest)

end

/-- The top-level records `treeToWorkflow` emits for a sibling list under
parent id `p`, starting at sibling order `i` (one record per child, no
recursion into grandchildren). -/
def topRecords (csm : CanvasStateMap) (p : String) :
    Nat → List HierarchyNode → List WorkflowNode
  | _, [] => []
  | i, c :: rest => mkRecord csm (some p) i c :: topRecords csm p (i + 1) rest

/-! ## Basic tree lemmas -/

theorem findNodeList_append (l1 l2 : List HierarchyNode) (q : String) :
    findNodeList (l1 ++ l2) q =
      match findNodeList l1 q with
      | some r => some r
      | none => findNodeList l2 q := by
  induction l1 with
  | nil => simp [findNodeList]
  | cons c rest ih =>
      rw [List.cons_append, findNodeList, findNodeList]
      cases findNode c q with
      | some r => rfl
      | none => exact ih

theorem treeIdsList_append (l1 l2 : List HierarchyNode) :
    treeIdsList (l1 ++ l2) = treeIdsList l1 ++ treeIdsList l2 := by
  induction l1 with
  | nil => simp [treeIdsList]
  | cons c rest ih => rw [List.cons_append, treeIdsList, treeIdsList, ih,
      List.append_assoc]

theorem findNode_id : ∀ t q X, findNode t q = some X → X.id = q := by
  intro t
  induction t using HierarchyNode.ind' with
  | h i n ty cs ih =>
      intro q X h
      rw [findNode] at h
      by_cases hq : i = q
      · rw [if_pos hq] at h
        injection h with h
        subst h
        exact hq
      · rw [if_neg hq] at h
        have aux : ∀ l, (∀ c ∈ l, ∀ q' X', findNode c q' = some X' → X'.id = q') →
            ∀ X', findNodeList l q = some X' → X'.id = q := by
          intro l
          induction l with
          | nil => intro _ X' h'; simp [findNodeList] at h'
          | cons c rest ihl =>
              intro hall X' h'
              rw [findNodeList] at h'
              cases hc : findNode c q with
              | some r =>
                  rw [hc] at h'
                  injection h' with h'
                  subst h'
                  exact hall c (by simp) q _ hc
              | none =>
                  rw [hc] at h'
                  exact ihl (fun x hx => hall x (by simp [hx])) X' h'
        exact aux cs ih X h

theorem findNode_isSome_iff :
    ∀ t q, (findNode t q).isSome ↔ q ∈ treeIds t := by
  intro t
  induction t using HierarchyNode.ind' with
  | h i n ty cs ih =>
      intro q
      rw [findNode, treeIds]
      by_cases hq : i = q
      · simp [hq]
      · rw [if_neg hq]
        have aux : ∀ l, (∀ c ∈ l, ∀ q', (findNode c q').isSome ↔ q' ∈ treeIds c) →
            ((findNodeList l q).isSome ↔ q ∈ treeIdsList l) := by
          intro l
          induction l with
          | nil => intro _; simp [findNodeList, treeIdsList]
          | cons c rest ihl =>
              intro hall
              rw [findNodeList, treeIdsList]
              cases hc : findNode c q with
              | some r =>
                  have : q ∈ treeIds c := (hall c (by simp) q).mp (by simp [hc])
                  simp [this]
              | none =>
                  have hnc : q ∉ treeIds c := fun hmem => by
                    have := (hall c (by simp) q).mpr hmem
                    rw [hc] at this
                    simp at this
                  rw [List.mem_append]
                  simp only [hnc, false_or]
                  exact ihl (fun x hx => hall x (by simp [hx]))
        rw [List.mem_cons]
        have hq' : ¬ q = i := fun h => hq h.symm
        simp only [hq', false_or]
        exact aux cs ih

theorem findNode_eq_none (t : HierarchyNode) (q : String) (h : q ∉ treeIds t) :
    findNode t q = none := by
  have := (findNode_isSome_iff t q)
  cases hf : findNode t q with
  | none => rfl
  | some r =>
      exact absurd (this.mp (by simp [hf])) h

theorem findNodeList_eq_none (l : List HierarchyNode) (q : String)
    (h : q ∉ treeIdsList l) : findNodeList l q = none := by
  induction l with
  | nil => rfl
  | cons c rest ih =>
      rw [treeIdsList] at h
      simp only [List.mem_append, not_or] at h
      rw [findNodeList, findNode_eq_none c q h.1]
      exact ih h.2

theorem mem_allSubtrees_self (t : HierarchyNode) : t ∈ allSubtrees t := by
  cases t with
  | mk i n ty cs =>
      rw [allSubtrees]
      exact List.mem_cons_self _ _

theorem allSubtreesList_mem_split (l : List HierarchyNode) (S : HierarchyNode)
    (h : S ∈ allSubtreesList l) : ∃ c ∈ l, S ∈ allSubtrees c := by
  induction l with
  | nil => simp [allSubtreesList] at h
  | cons c rest ih =>
      rw [allSubtreesList, List.mem_append] at h
      rcases h with h | h
      · exact ⟨c, by simp, h⟩
      · obtain ⟨c', hc', hS⟩ := ih h
        exact ⟨c', by simp [hc'], hS⟩

theorem mem_allSubtreesList_of_mem (l : List HierarchyNode) (c : HierarchyNode)
    (hc : c ∈ l) (x : HierarchyNode) (hx : x ∈ allSubtrees c) :
    x ∈ allSubtreesList l := by
  induction l with
  | nil => simp at hc
  | cons c0 rest ih =>
      rw [allSubtreesList, List.mem_append]
      rcases List.mem_cons.mp hc with h | h
      · subst h
        exact Or.inl hx
      · exact Or.inr (ih h)

theorem allSubtrees_trans :
    ∀ t S, S ∈ allSubtrees t → ∀ x ∈ allSubtrees S, x ∈ allSubtrees t := by
  intro t
  induction t using HierarchyNode.ind' with
  | h i n ty cs ih =>
      intro S hS x hx
      rw [allSubtrees] at hS ⊢
      rcases List.mem_cons.mp hS with h | h
      · subst h
        rw [allSubtrees] at hx
        exact hx
      · obtain ⟨c, hc, hSc⟩ := allSubtreesList_mem_split cs S h
        exact List.mem_cons_of_mem _
          (mem_allSubtreesList_of_mem cs c hc x (ih c hc S hSc x hx))

theorem children_mem_allSubtrees (t S : HierarchyNode) (hS : S ∈ allSubtrees t)
    (c : HierarchyNode) (hc : c ∈ S.children) : c ∈ allSubtrees t := by
  apply allSubtrees_trans t S hS
  cases S with
  | mk i n ty cs =>
      rw [allSubtrees]
      exact List.mem_cons_of_mem _
        (mem_allSubtreesList_of_mem cs c hc c (mem_allSubtrees_self c))

theorem treeIds_sublist_of_mem (l : List HierarchyNode) (c : HierarchyNode)
    (hc : c ∈ l) : List.Sublist (treeIds c) (treeIdsList l) := by
  induction l with
  | nil => simp at hc
  | cons c0 rest ih =>
      rw [treeIdsList]
      rcases List.mem_cons.mp hc with h | h
      · subst h
        exact List.sublist_append_left _ _
      · exact (ih h).trans (List.sublist_append_right _ _)

theorem treeIds_sublist :
    ∀ t S, S ∈ allSubtrees t → List.Sublist (treeIds S) (treeIds t) := by
  intro t
  induction t using HierarchyNode.ind' with
  | h i n ty cs ih =>
      intro S hS
      rw [allSubtrees] at hS
      rcases List.mem_cons.mp hS with h | h
      · subst h
        exact List.Sublist.refl _
      · obtain ⟨c, hc, hSc⟩ := allSubtreesList_mem_split cs S h
        rw [treeIds]
        exact ((ih c hc S hSc).trans (treeIds_sublist_of_mem cs c hc)).trans
          (List.sublist_cons_self _ _)

theorem head_mem_treeIds (t : HierarchyNode) : t.id ∈ treeIds t := by
  cases t with
  | mk i n ty cs => rw [treeIds]; simp [HierarchyNode.id]

theorem subtree_id_mem (t S : HierarchyNode) (hS : S ∈ allSubtrees t) :
    S.id ∈ treeIds t :=
  (treeIds_sublist t S hS).mem (head_mem_treeIds S)

/-! ## `cloneAndInsert` lemmas -/

theorem cloneAndInsert_root_id (t : HierarchyNode) (pid : String) (c : HierarchyNode) :
    (cloneAndInsert t pid c).id = t.id ∧
    (cloneAndInsert t pid c).name = t.name ∧
    (cloneAndInsert t pid c).type = t.type := by
  cases t with
  | mk i n ty cs =>
      rw [cloneAndInsert]
      by_cases h : i = pid
      · simp [h, HierarchyNode.id, HierarchyNode.name, HierarchyNode.type]
      · simp [h, HierarchyNode.id, HierarchyNode.name, HierarchyNode.type]

theorem cloneAndInsertList_map_id (l : List HierarchyNode) (pid : String)
    (c : HierarchyNode) :
    (cloneAndInsertList l pid c).map HierarchyNode.id = l.map HierarchyNode.id := by
  induction l with
  | nil => rfl
  | cons c0 rest ih =>
      rw [cloneAndInsertList, List.map_cons, List.map_cons, ih,
        (cloneAndInsert_root_id c0 pid c).1]

theorem cloneAndInsert_children_of_ne (i n : String) (ty : HierarchyNodeType)
    (cs : List HierarchyNode) (pid : String) (c : HierarchyNode) (h : i ≠ pid) :
    cloneAndInsert (.mk i n ty cs) pid c = .mk i n ty (cloneAndInsertList cs pid c) := by
  rw [cloneAndInsert, if_neg h]

theorem cloneAndInsert_of_not_mem (pid : String) (c : HierarchyNode) :
    ∀ t, pid ∉ treeIds t → cloneAndInsert t pid c = t := by
  intro t
  induction t using HierarchyNode.ind' with
  | h i n ty cs ih =>
      intro hmem
      rw [treeIds] at hmem
      simp only [List.mem_cons, not_or] at hmem
      rw [cloneAndInsert, if_neg (fun h => hmem.1 h.symm)]
      have aux : ∀ l, (∀ x ∈ l, pid ∉ treeIds x → cloneAndInsert x pid c = x) →
          pid ∉ treeIdsList l → cloneAndInsertList l pid c = l := by
        intro l
        induction l with
        | nil => intro _ _; rfl
        | cons c0 rest ihl =>
            intro hall hm
            rw [treeIdsList] at hm
            simp only [List.mem_append, not_or] at hm
            rw [cloneAndInsertList, hall c0 (by simp) hm.1,
              ihl (fun x hx => hall x (by simp [hx])) hm.2]
      rw [aux cs ih hmem.2]

theorem cloneAndInsertList_of_not_memList (pid : String) (c : HierarchyNode) :
    ∀ l, pid ∉ treeIdsList l → cloneAndInsertList l pid c = l := by
  intro l
  induction l with
  | nil => intro _; rfl
  | cons c0 rest ih =>
      intro hm
      rw [treeIdsList] at hm
      simp only [List.mem_append, not_or] at hm
      rw [cloneAndInsertList, cloneAndInsert_of_not_mem pid c c0 hm.1, ih hm.2]

theorem cloneAndInsert_ids_sub (pid : String) (c : HierarchyNode) :
    ∀ t x, x ∈ treeIds (cloneAndInsert t pid c) → x ∈ treeIds t ∨ x ∈ treeIds c := by
  intro t
  induction t using HierarchyNode.ind' with
  | h i n ty cs ih =>
      intro x hx
      rw [cloneAndInsert] at hx
      by_cases h : i = pid
      · rw [if_pos h, treeIds, treeIdsList_append] at hx
        rcases List.mem_cons.mp hx with hx | hx
        · exact Or.inl (by rw [treeIds]; exact List.mem_cons.mpr (Or.inl hx))
        · rcases List.mem_append.mp hx with hx | hx
          · exact Or.inl (by rw [treeIds]; exact List.mem_cons.mpr (Or.inr hx))
          · simp only [treeIdsList, List.append_nil] at hx
            exact Or.inr hx
      · rw [if_neg h, treeIds] at hx
        rcases List.mem_cons.mp hx with hx | hx
        · exact Or.inl (by rw [treeIds]; exact List.mem_cons.mpr (Or.inl hx))
        · have aux : ∀ l, (∀ y ∈ l, ∀ x', x' ∈ treeIds (cloneAndInsert y pid c) →
              x' ∈ treeIds y ∨ x' ∈ treeIds c) →
              x ∈ treeIdsList (cloneAndInsertList l pid c) →
              x ∈ treeIdsList l ∨ x ∈ treeIds c := by
            intro l
            induction l with
            | nil => intro _ hx'; simp [cloneAndInsertList, treeIdsList] at hx'
            | cons c0 rest ihl =>
                intro hall hx'
                rw [cloneAndInsertList, treeIdsList, List.mem_append] at hx'
                rcases hx' with hx' | hx'
                · rcases hall c0 (by simp) x hx' with h' | h'
                  · exact Or.inl (by rw [treeIdsList, List.mem_append]; exact Or.inl h')
                  · exact Or.inr h'
                · rcases ihl (fun y hy => hall y (by simp [hy])) hx' with h' | h'
                  · exact Or.inl (by rw [treeIdsList, List.mem_append]; exact Or.inr h')
                  · exact Or.inr h'
          rcases aux cs ih hx with h' | h'
          · exact Or.inl (by rw [treeIds]; exact List.mem_cons.mpr (Or.inr h'))
          · exact Or.inr h'

theorem findNode_cloneAndInsert_self (pid : String) (c : HierarchyNode) :
    ∀ t X, findNode t pid = some X →
      findNode (cloneAndInsert t pid c) pid =
        some (.mk X.id X.name X.type (X.children ++ [c])) := by
  intro t
  induction t using HierarchyNode.ind' with
  | h i n ty cs ih =>
      intro X hf
      rw [findNode] at hf
      by_cases hq : i = pid
      · rw [if_pos hq] at hf
        injection hf with hf
        subst hf
        rw [cloneAndInsert, if_pos hq, findNode, if_pos hq]
        simp [HierarchyNode.id, HierarchyNode.name, HierarchyNode.type,
          HierarchyNode.children]
      · rw [if_neg hq] at hf
        rw [cloneAndInsert, if_neg hq, findNode, if_neg hq]
        have aux : ∀ l, (∀ y ∈ l, ∀ X', findNode y pid = some X' →
            findNode (cloneAndInsert y pid c) pid =
              some (.mk X'.id X'.name X'.type (X'.children ++ [c]))) →
            ∀ X', findNodeList l pid = some X' →
            findNodeList (cloneAndInsertList l pid c) pid =
              some (.mk X'.id X'.name X'.type (X'.children ++ [c])) := by
          intro l
          induction l with
          | nil => intro _ X' h'; simp [findNodeList] at h'
          | cons c0 rest ihl =>
              intro hall X' h'
              rw [findNodeList] at h'
              rw [cloneAndInsertList, findNodeList]
              cases h0 : findNode c0 pid with
              | some X0 =>
                  rw [h0] at h'
                  injection h' with h'
                  subst h'
                  rw [hall c0 (by simp) X0 h0]
              | none =>
                  rw [h0] at h'
                  have hnm : pid ∉ treeIds c0 := fun hmem => by
                    have := (findNode_isSome_iff c0 pid).mpr hmem
                    rw [h0] at this
                    simp at this
                  rw [cloneAndInsert_of_not_mem pid c c0 hnm, h0]
                  exact ihl (fun y hy => hall y (by simp [hy])) X' h'
        exact aux cs ih X hf

theorem findNode_cloneAndInsert_shape (pid : String) (c : HierarchyNode) :
    ∀ t q S, (∀ x ∈ treeIds c, x ∉ treeIds t) → findNode t q = some S → q ≠ pid →
      findNode (cloneAndInsert t pid c) q = some S ∨
      findNode (cloneAndInsert t pid c) q = some (cloneAndInsert S pid c) := by
  intro t
  induction t using HierarchyNode.ind' with
  | h i n ty cs ih =>
      intro q S hfresh hf hqp
      have hqt : q ∈ treeIds (.mk i n ty cs) :=
        (findNode_isSome_iff _ q).mp (by simp [hf])
      have hqc : q ∉ treeIds c := fun hm => hfresh q hm hqt
      rw [findNode] at hf
      by_cases hiq : i = q
      · rw [if_pos hiq] at hf
        injection hf with hf
        subst hf
        right
        have hip : i ≠ pid := fun h => hqp (hiq ▸ h.symm).symm
        rw [cloneAndInsert_children_of_ne i n ty cs pid c hip, findNode, if_pos hiq]
      · rw [if_neg hiq] at hf
        by_cases hip : i = pid
        · left
          rw [cloneAndInsert, if_pos hip, findNode, if_neg hiq, findNodeList_append]
          rw [hf]
        · rw [cloneAndInsert_children_of_ne i n ty cs pid c hip, findNode, if_neg hiq]
          have aux : ∀ l, (∀ y ∈ l, ∀ q' S',
              (∀ x ∈ treeIds c, x ∉ treeIds y) → findNode y q' = some S' → q' ≠ pid →
              findNode (cloneAndInsert y pid c) q' = some S' ∨
              findNode (cloneAndInsert y pid c) q' = some (cloneAndInsert S' pid c)) →
              (∀ x ∈ treeIds c, x ∉ treeIdsList l) →
              findNodeList l q = some S →
              findNodeList (cloneAndInsertList l pid c) q = some S ∨
              findNodeList (cloneAndInsertList l pid c) q =
                some (cloneAndInsert S pid c) := by
            intro l
            induction l with
            | nil => intro _ _ h'; simp [findNodeList] at h'
            | cons c0 rest ihl =>
                intro hall hfr h'
                rw [findNodeList] at h'
                rw [cloneAndInsertList, findNodeList]
                cases h0 : findNode c0 q with
                | some S0 =>
                    rw [h0] at h'
                    injection h' with h'
                    subst h'
                    have hfr0 : ∀ x ∈ treeIds c, x ∉ treeIds c0 := fun x hx hm =>
                      hfr x hx (by rw [treeIdsList, List.mem_append]; exact Or.inl hm)
                    rcases hall c0 (by simp) q S0 hfr0 h0 hqp with h1 | h1
                    · rw [h1]; exact Or.inl rfl
                    · rw [h1]; exact Or.inr rfl
                | none =>
                    rw [h0] at h'
                    have hq0 : q ∉ treeIds c0 := fun hmem => by
                      have := (findNode_isSome_iff c0 q).mpr hmem
                      rw [h0] at this
                      simp at this
                    have hclone0 : findNode (cloneAndInsert c0 pid c) q = none := by
                      cases hcf : findNode (cloneAndInsert c0 pid c) q with
                      | none => rfl
                      | some r =>
                          have hqm : q ∈ treeIds (cloneAndInsert c0 pid c) :=
                            (findNode_isSome_iff _ q).mp (by simp [hcf])
                          rcases cloneAndInsert_ids_sub pid c c0 q hqm with h1 | h1
                          · exact absurd h1 hq0
                          · exact absurd h1 hqc
                    rw [hclone0]
                    exact ihl (fun y hy => hall y (by simp [hy]))
                      (fun x hx hm => hfr x hx
                        (by rw [treeIdsList, List.mem_append]; exact Or.inr hm)) h'
          have hfrl : ∀ x ∈ treeIds c, x ∉ treeIdsList cs := fun x hx hm =>
            hfresh x hx (by rw [treeIds]; exact List.mem_cons.mpr (Or.inr hm))
          exact aux cs (fun y hy q' S' hfr' hf' hqp' => ih y hy q' S' hfr' hf' hqp')
            hfrl hf

/-! ## C6: `cloneAndInsert` appends at the target and preserves the rest -/

/-- **C6.**  With unique node ids and the new child's ids fresh for the tree,
`cloneAndInsert root parentId newChild` returns a tree in which the node with
id `parentId` has `newChild` appended to the end of its children; every node
whose subtree does not contain the target is returned unchanged (the transform
is pure, so the input value is untouched by construction), and every other
node keeps its id, name, kind, and the ids and order of its children. -/
theorem c6_cloneAndInsert_frame (T : HierarchyNode) (pid : String)
    (c X : HierarchyNode)
    (hnd : (treeIds T).Nodup)
    (hfind : findNode T pid = some X)
    (hfresh : ∀ q ∈ treeIds c, q ∉ treeIds T) :
    findNode (cloneAndInsert T pid c) pid =
      some (.mk X.id X.name X.type (X.children ++ [c]))
    ∧ (∀ q S, findNode T q = some S → q ≠ pid → pid ∉ treeIds S →
        findNode (cloneAndInsert T pid c) q = some S)
    ∧ (∀ q S, findNode T q = some S → q ≠ pid →
        ∃ S', findNode (cloneAndInsert T pid c) q = some S' ∧
          S'.id = S.id ∧ S'.name = S.name ∧ S'.type = S.type ∧
          S'.children.map HierarchyNode.id = S.children.map HierarchyNode.id) := by
  refine ⟨findNode_cloneAndInsert_self pid c T X hfind, ?_, ?_⟩
  · intro q S hf hqp hps
    rcases findNode_cloneAndInsert_shape pid c T q S hfresh hf hqp with h | h
    · exact h
    · rw [cloneAndInsert_of_not_mem pid c S hps] at h
      exact h
  · intro q S hf hqp
    rcases findNode_cloneAndInsert_shape pid c T q S hfresh hf hqp with h | h
    · exact ⟨S, h, rfl, rfl, rfl, rfl⟩
    · refine ⟨cloneAndInsert S pid c, h, (cloneAndInsert_root_id S pid c).1,
        (cloneAndInsert_root_id S pid c).2.1, (cloneAndInsert_root_id S pid c).2.2, ?_⟩
      have hSq : S.id = q := findNode_id T q S hf
      cases S with
      | mk si sn sty scs =>
          have : si ≠ pid := by
            simp only [HierarchyNode.id] at hSq
            exact hSq ▸ hqp
          rw [cloneAndInsert_children_of_ne si sn sty scs pid c this,
            HierarchyNode.children, HierarchyNode.children]
          exact cloneAndInsertList_map_id scs pid c

/-- Witness for `c6_cloneAndInsert_frame`: append a fresh PROCEDURE under the
root of a two-node tree. -/
theorem c6_cloneAndInsert_frame_witness :
    findNode (cloneAndInsert (.mk "r" "R" RECIPE [.mk "a" "A" PROCEDURE []]) "r"
        (.mk "b" "B" PROCEDURE [])) "r" =
      some (.mk "r" "R" RECIPE [.mk "a" "A" PROCEDURE [], .mk "b" "B" PROCEDURE []]) :=
  (c6_cloneAndInsert_frame (.mk "r" "R" RECIPE [.mk "a" "A" PROCEDURE []]) "r"
    (.mk "b" "B" PROCEDURE []) (.mk "r" "R" RECIPE [.mk "a" "A" PROCEDURE []])
    (by decide) (by decide) (by decide)).1

/-! ## C7: the ISA-88 containment invariant under the editor's add operation -/

mutual

/-- A tree is well typed when every node's children carry exactly the child
kind the ISA-88 table permits for that node's kind. -/
def WellTyped : HierarchyNode → Prop
  | .mk _ _ ty cs => WellTypedList ty cs

def WellTypedList : HierarchyNodeType → List HierarchyNode → Prop
  | _, [] => True
  | ty, c :: rest =>
      ISA88_CHILD_TYPE ty = some c.type ∧ WellTyped c ∧ WellTypedList ty rest

end

/-- Trees reachable from the initial single-node RECIPE root using only the
editor's add-child operation, exactly as the claim quantifies them. -/
inductive ReachableEditor : HierarchyNode → Prop where
  | init (rid rname : String) : ReachableEditor (.mk rid rname RECIPE [])
  | step (t : HierarchyNode) (sel nid nname : String) :
      ReachableEditor t → ReachableEditor (confirmAdd t sel nid nname)

/-- Reachability restricted to adds whose (trimmed) new id is fresh for the
tree — the discipline under which the invariant actually holds. -/
inductive ReachableEditorFresh : HierarchyNode → Prop where
  | init (rid rname : String) : ReachableEditorFresh (.mk rid rname RECIPE [])
  | step (t : HierarchyNode) (sel nid nname : String) :
      ReachableEditorFresh t → trimStr nid ∉ treeIds t →
      ReachableEditorFresh (confirmAdd t sel nid nname)

theorem wellTypedList_mem :
    ∀ l ty, WellTypedList ty l → ∀ c ∈ l,
      ISA88_CHILD_TYPE ty = some c.type ∧ WellTyped c := by
  intro l
  induction l with
  | nil => intro ty _ c hc; simp at hc
  | cons c0 rest ih =>
      intro ty hwt c hc
      rw [WellTypedList] at hwt
      rcases List.mem_cons.mp hc with h | h
      · subst h
        exact ⟨hwt.1, hwt.2.1⟩
      · exact ih ty hwt.2.2 c h

theorem wellTypedList_append (ty : HierarchyNodeType) (l1 l2 : List HierarchyNode) :
    WellTypedList ty l1 → WellTypedList ty l2 → WellTypedList ty (l1 ++ l2) := by
  induction l1 with
  | nil => intro _ h; simpa using h
  | cons c0 rest ih =>
      intro h1 h2
      rw [WellTypedList] at h1
      rw [List.cons_append, WellTypedList]
      exact ⟨h1.1, h1.2.1, ih h1.2.2 h2⟩

theorem wellTyped_subtrees :
    ∀ t, WellTyped t → ∀ P ∈ allSubtrees t, ∀ c ∈ P.children,
      ISA88_CHILD_TYPE P.type = some c.type ∧ WellTyped c := by
  intro t
  induction t using HierarchyNode.ind' with
  | h i n ty cs ih =>
      intro hwt P hP c hc
      rw [allSubtrees] at hP
      rcases List.mem_cons.mp hP with h | h
      · subst h
        rw [WellTyped] at hwt
        exact wellTypedList_mem cs ty hwt c hc
      · obtain ⟨c0, hc0, hS⟩ := allSubtreesList_mem_split cs P h
        rw [WellTyped] at hwt
        exact ih c0 hc0 (wellTypedList_mem cs ty hwt c0 hc0).2 P hS c hc

/-- Inserting a correctly-typed leaf at the unique node with the target id
preserves well-typedness. -/
theorem cloneAndInsert_wellTyped (sel : String) (nc : HierarchyNode)
    (hncwt : WellTyped nc) :
    ∀ t X, WellTyped t → (treeIds t).Nodup → findNode t sel = some X →
      ISA88_CHILD_TYPE X.type = some nc.type →
      WellTyped (cloneAndInsert t sel nc) := by
  intro t
  induction t using HierarchyNode.ind' with
  | h i n ty cs ih =>
      intro X hwt hnd hf hty
      rw [findNode] at hf
      rw [WellTyped] at hwt
      by_cases hq : i = sel
      · rw [if_pos hq] at hf
        injection hf with hf
        subst hf
        rw [cloneAndInsert, if_pos hq, WellTyped]
        apply wellTypedList_append ty cs [nc] hwt
        rw [WellTypedList]
        refine ⟨?_, hncwt, trivial⟩
        simpa [HierarchyNode.type] using hty
      · rw [if_neg hq] at hf
        rw [cloneAndInsert, if_neg hq, WellTyped]
        rw [treeIds, List.nodup_cons] at hnd
        have aux : ∀ l, (∀ y ∈ l, ∀ X', WellTyped y → (treeIds y).Nodup →
            findNode y sel = some X' → ISA88_CHILD_TYPE X'.type = some nc.type →
            WellTyped (cloneAndInsert y sel nc)) →
            WellTypedList ty l → (treeIdsList l).Nodup →
            findNodeList l sel = some X →
            WellTypedList ty (cloneAndInsertList l sel nc) := by
          intro l
          induction l with
          | nil => intro _ _ _ h'; simp [findNodeList] at h'
          | cons c0 rest ihl =>
              intro hall hwl hnl h'
              rw [WellTypedList] at hwl
              rw [treeIdsList, List.nodup_append] at hnl
              rw [findNodeList] at h'
              rw [cloneAndInsertList, WellTypedList]
              cases h0 : findNode c0 sel with
              | some X0 =>
                  rw [h0] at h'
                  injection h' with h'
                  subst h'
                  have hsel0 : sel ∈ treeIds c0 :=
                    (findNode_isSome_iff c0 sel).mp (by simp [h0])
                  have hselr : sel ∉ treeIdsList rest := fun hm =>
                    hnl.2.2 hsel0 hm
                  refine ⟨?_, ?_, ?_⟩
                  · rw [(cloneAndInsert_root_id c0 sel nc).2.2]
                    exact hwl.1
                  · exact hall c0 (by simp) X0 hwl.2.1 hnl.1 h0 hty
                  · rw [cloneAndInsertList_of_not_memList sel nc rest hselr]
                    exact hwl.2.2
              | none =>
                  rw [h0] at h'
                  have hnm : sel ∉ treeIds c0 := fun hmem => by
                    have := (findNode_isSome_iff c0 sel).mpr hmem
                    rw [h0] at this
                    simp at this
                  rw [cloneAndInsert_of_not_mem sel nc c0 hnm]
                  exact ⟨hwl.1, hwl.2.1,
                    ihl (fun y hy => hall y (by simp [hy])) hwl.2.2 hnl.2.1 h'⟩
        exact aux cs (fun y hy X' a b cfind d => ih y hy X' a b cfind d) hwt hnd.2 hf

theorem cloneAndInsert_ids_perm (sel : String) (nc : HierarchyNode) :
    ∀ t, (treeIds t).Nodup →
      List.Perm (treeIds (cloneAndInsert t sel nc))
        (treeIds t ++ (if sel ∈ treeIds t then treeIds nc else [])) := by
  intro t
  induction t using HierarchyNode.ind' with
  | h i n ty cs ih =>
      intro hnd
      by_cases hq : i = sel
      · rw [cloneAndInsert, if_pos hq]
        have hik : sel ∈ treeIds (.mk i n ty cs) := by
          rw [treeIds]
          exact List.mem_cons.mpr (Or.inl hq.symm)
        rw [if_pos hik, treeIds, treeIds, treeIdsList_append]
        simp only [treeIdsList, List.append_nil]
        rw [← List.cons_append]
      · rw [cloneAndInsert_children_of_ne i n ty cs sel nc hq, treeIds, treeIds]
        rw [treeIds, List.nodup_cons] at hnd
        have hifc : (sel ∈ i :: treeIdsList cs) = (sel ∈ treeIdsList cs) := by
          apply propext
          rw [List.mem_cons]
          constructor
          · rintro (h | h)
            · exact absurd h.symm hq
            · exact h
          · exact Or.inr
        have aux : ∀ l, (∀ y ∈ l, (treeIds y).Nodup →
            List.Perm (treeIds (cloneAndInsert y sel nc))
              (treeIds y ++ (if sel ∈ treeIds y then treeIds nc else []))) →
            (treeIdsList l).Nodup →
            List.Perm (treeIdsList (cloneAndInsertList l sel nc))
              (treeIdsList l ++ (if sel ∈ treeIdsList l then treeIds nc else [])) := by
          intro l
          induction l with
          | nil =>
              intro _ _
              simp [cloneAndInsertList, treeIdsList]
          | cons c0 rest ihl =>
              intro hall hn
              rw [treeIdsList, List.nodup_append] at hn
              rw [cloneAndInsertList, treeIdsList, treeIdsList]
              by_cases h0 : sel ∈ treeIds c0
              · have h0r : sel ∉ treeIdsList rest := fun hm => hn.2.2 h0 hm
                have hhead := hall c0 (by simp) hn.1
                rw [if_pos h0] at hhead
                rw [cloneAndInsertList_of_not_memList sel nc rest h0r]
                have hsel2 : sel ∈ treeIds c0 ++ treeIdsList rest :=
                  List.mem_append.mpr (Or.inl h0)
                rw [if_pos hsel2]
                refine (hhead.append_right _).trans ?_
                rw [List.append_assoc, List.append_assoc]
                exact List.Perm.append_left _ List.perm_append_comm
              · rw [cloneAndInsert_of_not_mem sel nc c0 h0]
                have hsel2 : (sel ∈ treeIds c0 ++ treeIdsList rest) =
                    (sel ∈ treeIdsList rest) := by
                  simp [List.mem_append, h0]
                simp only [hsel2]
                rw [List.append_assoc]
                exact List.Perm.append_left _
                  (ihl (fun y hy => hall y (by simp [hy])) hn.2.1)
        simp only [hifc]
        exact List.Perm.cons i (aux cs ih hnd.2)

/-- Case split on the guards of `confirmAdd`: either a guard fails and the
tree is returned unchanged, or a correctly-typed leaf is inserted at the
selected id. -/
theorem confirmAdd_cases (t : HierarchyNode) (sel nid nname : String) :
    confirmAdd t sel nid nname = t ∨
    ∃ X ct, findNode t sel = some X ∧ ISA88_CHILD_TYPE X.type = some ct ∧
      confirmAdd t sel nid nname =
        cloneAndInsert t sel (.mk (trimStr nid) (trimStr nname) ct []) := by
  cases hf : findNode t sel with
  | none =>
      left
      simp only [confirmAdd, hf]
  | some X =>
      cases hct : ISA88_CHILD_TYPE X.type with
      | none =>
          left
          simp only [confirmAdd, hf, hct]
      | some ct =>
          by_cases hbl : trimStr nid = "" ∨ trimStr nname = ""
          · left
            simp only [confirmAdd, hf, hct]
            rw [if_pos hbl]
          · right
            refine ⟨X, ct, rfl, hct, ?_⟩
            simp only [confirmAdd, hf, hct]
            rw [if_neg hbl]

/-- The add-with-fresh-ids discipline preserves unique ids and
well-typedness. -/
theorem reachableFresh_invariant :
    ∀ t, ReachableEditorFresh t → (treeIds t).Nodup ∧ WellTyped t := by
  intro t h
  induction h with
  | init rid rname =>
      constructor
      · rw [treeIds]
        simp [treeIdsList]
      · rw [WellTyped]
        trivial
  | step t sel nid nname ht hfresh ih =>
      obtain ⟨hnd, hwt⟩ := ih
      rcases confirmAdd_cases t sel nid nname with heq | ⟨X, ct, hf, hct, heq⟩
      · rw [heq]
        exact ⟨hnd, hwt⟩
      · rw [heq]
        constructor
        · have hperm := cloneAndInsert_ids_perm sel
            (.mk (trimStr nid) (trimStr nname) ct []) t hnd
          have hsel : sel ∈ treeIds t :=
            (findNode_isSome_iff t sel).mp (by simp [hf])
          rw [if_pos hsel] at hperm
          apply hperm.nodup_iff.mpr
          rw [List.nodup_append]
          refine ⟨hnd, ?_, ?_⟩
          · rw [treeIds]
            simp [treeIdsList]
          · intro x hx hx'
            rw [treeIds] at hx'
            simp only [treeIdsList, List.mem_cons, List.not_mem_nil,
              or_false] at hx'
            subst hx'
            exact hfresh hx
        · apply cloneAndInsert_wellTyped sel
            (.mk (trimStr nid) (trimStr nname) ct []) (by rw [WellTyped]; trivial)
            t X hwt hnd hf
          simpa [HierarchyNode.type] using hct

/-- **C7** (amended).  For every tree reachable from the initial single-node
RECIPE root by the editor's add-child operation *with fresh trimmed ids* (ids
not already present in the tree — the editor does not enforce this itself),
every node's children carry exactly the ISA-88 permitted child kind of the
node's kind, and no node of kind PHASE has children. -/
theorem c7_containment_invariant (t : HierarchyNode) (h : ReachableEditorFresh t) :
    (∀ P ∈ allSubtrees t, ∀ c ∈ P.children, ISA88_CHILD_TYPE P.type = some c.type)
    ∧ (∀ P ∈ allSubtrees t, P.type = PHASE → P.children = []) := by
  have hwt := (reachableFresh_invariant t h).2
  constructor
  · intro P hP c hc
    exact (wellTyped_subtrees t hwt P hP c hc).1
  · intro P hP hty
    cases hcs : P.children with
    | nil => rfl
    | cons c0 rest =>
        have h0 := (wellTyped_subtrees t hwt P hP c0 (by rw [hcs]; simp)).1
        rw [hty] at h0
        simp [ISA88_CHILD_TYPE] at h0

/-- Witness for `c7_containment_invariant`: one fresh add under the root. -/
theorem c7_containment_invariant_witness :
    (∀ P ∈ allSubtrees (confirmAdd (.mk "r" "R" RECIPE []) "r" "a" "A"),
      ∀ c ∈ P.children, ISA88_CHILD_TYPE P.type = some c.type)
    ∧ (∀ P ∈ allSubtrees (confirmAdd (.mk "r" "R" RECIPE []) "r" "a" "A"),
      P.type = PHASE → P.children = []) :=
  c7_containment_invariant (confirmAdd (.mk "r" "R" RECIPE []) "r" "a" "A")
    (ReachableEditorFresh.step (.mk "r" "R" RECIPE []) "r" "a" "A"
      (ReachableEditorFresh.init "r" "R") (by decide))

/-- A six-step editor trace that reuses the id `"q"` at two different levels:
`"q"` is first an OPERATION under `"b"`, then a PHASE under `"d"`; the final
add selects `"q"`, computes the child type from the *first* match (OPERATION,
so PHASE), but `cloneAndInsert` appends at *every* outermost match — the PHASE
`"q"` included. -/
def c7Bad : HierarchyNode :=
  confirmAdd (confirmAdd (confirmAdd (confirmAdd (confirmAdd (confirmAdd
    (.mk "r" "R" RECIPE []) "r" "a" "A") "a" "b" "B") "b" "q" "Q") "b" "d" "D")
    "d" "q" "Q2") "q" "z" "Z"

/-- **C7 counterexample.**  `c7Bad` is reachable from the initial RECIPE root
using only the editor's add-child operation, yet it contains a PHASE node with
a child, and a node whose child's kind is not the permitted child kind. -/
theorem c7_duplicate_id_counterexample :
    ReachableEditor c7Bad ∧
    (∃ P ∈ allSubtrees c7Bad, P.type = PHASE ∧ P.children ≠ []) ∧
    (∃ P ∈ allSubtrees c7Bad, ∃ c ∈ P.children,
      ISA88_CHILD_TYPE P.type ≠ some c.type) := by
  refine ⟨?_, by decide, by decide⟩
  exact ReachableEditor.step _ _ _ _ (ReachableEditor.step _ _ _ _
    (ReachableEditor.step _ _ _ _ (ReachableEditor.step _ _ _ _
    (ReachableEditor.step _ _ _ _ (ReachableEditor.step _ _ _ _
    (ReachableEditor.init "r" "R"))))))

/-! ## Association-list lemmas -/

theorem recGet_recSet_self {α : Type} (m : List (String × α)) (k : String) (v : α) :
    recGet (recSet m k v) k = some v := by
  induction m with
  | nil => simp [recGet, recSet]
  | cons p rest ih =>
      by_cases h : p.1 = k
      · simp [recSet, recGet, h]
      · simpa [recSet, recGet, h, List.find?] using ih

theorem recGet_recSet_ne {α : Type} (m : List (String × α)) (k k' : String) (v : α)
    (h : k' ≠ k) : recGet (recSet m k v) k' = recGet m k' := by
  induction m with
  | nil => simp [recGet, recSet, List.find?, Ne.symm h]
  | cons p rest ih =>
      by_cases hp : p.1 = k
      · subst hp
        simp [recSet, recGet, List.find?, Ne.symm h]
      · by_cases hp' : p.1 = k'
        · simp [recSet, recGet, List.find?, hp, hp', h]
        · simpa [recSet, recGet, List.find?, hp, hp', h] using ih

/-! ## Per-level characterization of `workflowToCanvasStateMap`

The two loops of `workflowToCanvasStateMap` touch the entry of a key `p` only
through the records/edges that resolve to `p`, so the final entry of `p` is a
fold over those alone. -/

/-- Effect of one node record on its own level, seen per key. -/
def levelStepN (s : Option CanvasLevelState) (wn : WorkflowNode) :
    Option CanvasLevelState :=
  let s0 := s.getD emptyLevel
  some (if wn.placed then
    { s0 with placedIds := s0.placedIds ++ [wn.id],
              nodePositions := recSet s0.nodePositions wn.id wn.position }
  else s0)

/-- Effect of one edge record on its level, seen per key. -/
def levelStepE (s : Option CanvasLevelState) (we : WorkflowEdge) :
    Option CanvasLevelState :=
  let s0 := s.getD emptyLevel
  some { s0 with edges := s0.edges ++ [we] }

/-- The level an edge is filed under: the parent of its source, with missing
and empty-string parents (JS-falsy) resolving to none. -/
def edgeLevel (ns : List WorkflowNode) (e : WorkflowEdge) : Option String :=
  match lastParentOf ns e.source with
  | none => none
  | some p => if p = "" then none else some p

theorem nodePhase_recGet (ns : List WorkflowNode) (m : CanvasStateMap) (p : String) :
    recGet (ns.foldl wcsmNodeStep m) p =
      (ns.filter (fun n => decide (n.parentId = some p))).foldl levelStepN (recGet m p) := by
  induction ns generalizing m with
  | nil => rfl
  | cons wn rest ih =>
      rw [List.foldl_cons, ih]
      cases hpid : wn.parentId with
      | none => simp [List.filter_cons, hpid, wcsmNodeStep]
      | some q =>
          by_cases hq : q = p
          · subst hq
            have hf : List.filter (fun n => decide (n.parentId = some q)) (wn :: rest) =
                wn :: List.filter (fun n => decide (n.parentId = some q)) rest := by
              simp [List.filter_cons, hpid]
            have hget : recGet (wcsmNodeStep m wn) q = levelStepN (recGet m q) wn := by
              unfold wcsmNodeStep
              rw [hpid]
              cases hm : recGet m q with
              | some s =>
                  simp only [hm, levelStepN, Option.getD_some]
                  cases hpl : wn.placed
                  · simp [hpl, hm]
                  · simp [hpl, hm, recGet_recSet_self]
              | none =>
                  simp only [hm, levelStepN]
                  cases hpl : wn.placed
                  · simp [hpl, recGet_recSet_self]
                  · simp [hpl, recGet_recSet_self]
            rw [hget, hf, List.foldl_cons]
          · have hget : recGet (wcsmNodeStep m wn) p = recGet m p := by
              unfold wcsmNodeStep
              rw [hpid]
              cases hm : recGet m q with
              | some s =>
                  simp only [hm]
                  cases hpl : wn.placed
                  · simp [hpl]
                  · simp [hpl, recGet_recSet_ne _ _ _ _ (fun h => hq h.symm)]
              | none =>
                  simp only [hm, recGet_recSet_self]
                  cases hpl : wn.placed
                  · simp [hpl, recGet_recSet_ne _ _ _ _ (fun h => hq h.symm)]
                  · simp [hpl, recGet_recSet_ne _ _ _ _ (fun h => hq h.symm)]
            rw [hget]
            have : (wn.parentId = some p) = False := by
              simp [hpid, hq]
            simp [List.filter_cons, hpid, hq]

theorem edgePhase_recGet (ns : List WorkflowNode) (es : List WorkflowEdge)
    (m : CanvasStateMap) (p : String) :
    recGet (es.foldl (wcsmEdgeStep ns) m) p =
      (es.filter (fun e => decide (edgeLevel ns e = some p))).foldl levelStepE (recGet m p) := by
  induction es generalizing m with
  | nil => rfl
  | cons we rest ih =>
      rw [List.foldl_cons, ih]
      cases hlp : lastParentOf ns we.source with
      | none =>
          have hstep : wcsmEdgeStep ns m we = m := by
            unfold wcsmEdgeStep; rw [hlp]
          have hlv : edgeLevel ns we = none := by
            unfold edgeLevel; rw [hlp]
          simp [List.filter_cons, hlv, hstep]
      | some q =>
          by_cases hqe : q = ""
          · have hstep : wcsmEdgeStep ns m we = m := by
              unfold wcsmEdgeStep; rw [hlp]; simp [hqe]
            have hlv : edgeLevel ns we = none := by
              unfold edgeLevel; rw [hlp]; simp [hqe]
            simp [List.filter_cons, hlv, hstep]
          · have hlv : edgeLevel ns we = some q := by
              unfold edgeLevel; rw [hlp]; simp [hqe]
            by_cases hq : q = p
            · subst hq
              have hf : List.filter (fun e => decide (edgeLevel ns e = some q)) (we :: rest) =
                  we :: List.filter (fun e => decide (edgeLevel ns e = some q)) rest := by
                simp [List.filter_cons, hlv]
              have hget : recGet (wcsmEdgeStep ns m we) q = levelStepE (recGet m q) we := by
                unfold wcsmEdgeStep
                rw [hlp]
                cases hm : recGet m q with
                | some s => simp [hqe, hm, levelStepE, recGet_recSet_self]
                | none => simp [hqe, hm, levelStepE, recGet_recSet_self]
              rw [hget, hf, List.foldl_cons]
            · have hget : recGet (wcsmEdgeStep ns m we) p = recGet m p := by
                unfold wcsmEdgeStep
                rw [hlp]
                cases hm : recGet m q with
                | some s =>
                    simp [hqe, hm, recGet_recSet_ne _ _ _ _ (fun h => hq h.symm)]
                | none =>
                    simp [hqe, hm, recGet_recSet_self,
                      recGet_recSet_ne _ _ _ _ (fun h => hq h.symm)]
              rw [hget]
              simp [List.filter_cons, hlv, hq]

theorem levelFoldN_placedIds (l : List WorkflowNode) :
    ∀ s, ((l.foldl levelStepN s).getD emptyLevel).placedIds =
      (s.getD emptyLevel).placedIds ++ (l.filter (fun n => n.placed)).map (fun n => n.id) := by
  induction l with
  | nil => intro s; simp
  | cons wn rest ih =>
      intro s
      rw [List.foldl_cons, ih]
      cases hpl : wn.placed
      · simp [levelStepN, hpl, List.filter_cons]
      · simp [levelStepN, hpl, List.filter_cons]

theorem levelFoldN_nodePositions (l : List WorkflowNode) :
    ∀ s, ((l.foldl levelStepN s).getD emptyLevel).nodePositions =
      (l.filter (fun n => n.placed)).foldl (fun acc r => recSet acc r.id r.position)
        (s.getD emptyLevel).nodePositions := by
  induction l with
  | nil => intro s; simp
  | cons wn rest ih =>
      intro s
      rw [List.foldl_cons, ih]
      cases hpl : wn.placed
      · simp [levelStepN, hpl, List.filter_cons]
      · simp [levelStepN, hpl, List.filter_cons]

theorem levelFoldN_edges (l : List WorkflowNode) :
    ∀ s, ((l.foldl levelStepN s).getD emptyLevel).edges = (s.getD emptyLevel).edges := by
  induction l with
  | nil => intro s; simp
  | cons wn rest ih =>
      intro s
      rw [List.foldl_cons, ih]
      cases hpl : wn.placed
      · simp [levelStepN, hpl]
      · simp [levelStepN, hpl]

theorem levelFoldN_isSome_of_isSome (l : List WorkflowNode) :
    ∀ s : Option CanvasLevelState, s.isSome → (l.foldl levelStepN s).isSome := by
  induction l with
  | nil => intro s h; simpa using h
  | cons wn rest ih =>
      intro s _
      rw [List.foldl_cons]
      exact ih _ (by simp [levelStepN])

theorem levelFoldN_isSome_of_ne_nil (l : List WorkflowNode) (s : Option CanvasLevelState)
    (h : l ≠ []) : (l.foldl levelStepN s).isSome := by
  cases l with
  | nil => exact absurd rfl h
  | cons wn rest =>
      rw [List.foldl_cons]
      exact levelFoldN_isSome_of_isSome rest _ (by simp [levelStepN])

theorem edgeFold_fields (l : List WorkflowEdge) :
    ∀ s lv, l.foldl levelStepE s = some lv →
      lv.placedIds = (s.getD emptyLevel).placedIds ∧
      lv.nodePositions = (s.getD emptyLevel).nodePositions ∧
      lv.edges = (s.getD emptyLevel).edges ++ l := by
  induction l with
  | nil =>
      intro s lv h
      cases s with
      | none => simp at h
      | some b =>
          simp only [List.foldl_nil, Option.some.injEq] at h
          subst h
          simp
  | cons we rest ih =>
      intro s lv h
      rw [List.foldl_cons] at h
      obtain ⟨h1, h2, h3⟩ := ih _ _ h
      refine ⟨by simpa [levelStepE] using h1, by simpa [levelStepE] using h2, ?_⟩
      rw [h3]
      simp [levelStepE]

theorem edgeFold_isSome_of_isSome (l : List WorkflowEdge) :
    ∀ s : Option CanvasLevelState, s.isSome → (l.foldl levelStepE s).isSome := by
  induction l with
  | nil => intro s h; simpa using h
  | cons we rest ih =>
      intro s _
      rw [List.foldl_cons]
      exact ih _ (by simp [levelStepE])

theorem edgeFold_isSome_of_ne_nil (l : List WorkflowEdge) (s : Option CanvasLevelState)
    (h : l ≠ []) : (l.foldl levelStepE s).isSome := by
  cases l with
  | nil => exact absurd rfl h
  | cons we rest =>
      rw [List.foldl_cons]
      exact edgeFold_isSome_of_isSome rest _ (by simp [levelStepE])

theorem recGet_posFold_source (l : List WorkflowNode) :
    ∀ base id pos,
      recGet (l.foldl (fun acc r => recSet acc r.id r.position) base) id = some pos →
      (∃ r ∈ l, r.id = id ∧ r.position = pos) ∨ recGet base id = some pos := by
  induction l with
  | nil => intro base id pos h; exact Or.inr h
  | cons r rest ih =>
      intro base id pos h
      rw [List.foldl_cons] at h
      rcases ih _ _ _ h with hmem | hbase
      · obtain ⟨r', hr', h1, h2⟩ := hmem
        exact Or.inl ⟨r', by simp [hr'], h1, h2⟩
      · by_cases hid : r.id = id
        · subst hid
          rw [recGet_recSet_self] at hbase
          exact Or.inl ⟨r, by simp, rfl, by injection hbase⟩
        · rw [recGet_recSet_ne _ _ _ _ (fun h' => hid h'.symm)] at hbase
          exact Or.inr hbase

theorem recGet_posFold_skip (l : List WorkflowNode) :
    ∀ base id, id ∉ l.map (fun r => r.id) →
      recGet (l.foldl (fun acc r => recSet acc r.id r.position) base) id = recGet base id := by
  induction l with
  | nil => intro base id _; rfl
  | cons r rest ih =>
      intro base id hid
      simp only [List.map_cons, List.mem_cons, not_or] at hid
      rw [List.foldl_cons, ih _ _ hid.2, recGet_recSet_ne _ _ _ _ hid.1]

theorem recGet_posFold_isSome (l : List WorkflowNode) :
    ∀ base id, id ∈ l.map (fun r => r.id) →
      (recGet (l.foldl (fun acc r => recSet acc r.id r.position) base) id).isSome := by
  induction l with
  | nil => intro _ id h; simp at h
  | cons r rest ih =>
      intro base id hmem
      rw [List.foldl_cons]
      by_cases h : id ∈ rest.map (fun r => r.id)
      · exact ih _ _ h
      · have hid : id = r.id := by
          simp only [List.map_cons, List.mem_cons] at hmem
          tauto
        subst hid
        rw [recGet_posFold_skip _ _ _ h, recGet_recSet_self]
        rfl

theorem recGet_posFold_mem (l : List WorkflowNode) :
    ∀ base r, (l.map (fun n => n.id)).Nodup → r ∈ l →
      recGet (l.foldl (fun acc n => recSet acc n.id n.position) base) r.id =
        some r.position := by
  induction l with
  | nil => intro _ r _ h; simp at h
  | cons n rest ih =>
      intro base r hnd hr
      simp only [List.map_cons, List.nodup_cons] at hnd
      rw [List.foldl_cons]
      rcases List.mem_cons.mp hr with heq | hmem
      · subst heq
        rw [recGet_posFold_skip _ _ _ hnd.1, recGet_recSet_self]
      · exact ih _ _ hnd.2 hmem

/-! ## C3: `workflowToTree` -/

mutual

/-- The spec's recursive description of rebuild, as a check on a candidate
tree: the node carries the record's id, name and kind, and its children are
exactly the rebuilds of the flat records whose `parentId` equals the node's
id, sorted ascending by `order`. -/
def matchesSpec (ns : List WorkflowNode) : WorkflowNode → HierarchyNode → Bool
  | flat, .mk i nm ty cs =>
      decide (i = flat.id) && decide (nm = flat.name) && decide (ty = flat.type) &&
      matchesSpecList ns (childRecordsOf ns flat.id) cs

def matchesSpecList (ns : List WorkflowNode) :
    List WorkflowNode → List HierarchyNode → Bool
  | [], [] => true
  | f :: fs, c :: cs => matchesSpec ns f c && matchesSpecList ns fs cs
  | _, _ => false

end

theorem buildNode_matchesSpec (ns : List WorkflowNode) :
    ∀ fuel flat, buildFits ns fuel flat = true →
      matchesSpec ns flat (buildNode ns fuel flat) = true := by
  intro fuel
  induction fuel with
  | zero => intro flat h; simp [buildFits] at h
  | succ fuel ih =>
      intro flat h
      rw [buildFits] at h
      rw [buildNode, matchesSpec]
      simp only [Bool.and_eq_true, decide_eq_true_eq]
      refine ⟨by simp, ?_⟩
      have aux : ∀ l, l.all (buildFits ns fuel) = true →
          matchesSpecList ns l (l.map (buildNode ns fuel)) = true := by
        intro l
        induction l with
        | nil => intro _; rfl
        | cons f fs ihl =>
            intro hall
            rw [List.all_cons, Bool.and_eq_true] at hall
            rw [List.map_cons, matchesSpecList, Bool.and_eq_true]
            exact ⟨ih f hall.1, ihl hall.2⟩
      exact aux _ h

/-- **C3.**  `workflowToTree` returns `none` exactly when no flat record in
the document has the requested root id; otherwise — whenever the rebuild
recursion terminates (the TS recursion diverges on a cyclic parent relation;
`buildFits` with fuel `|nodes| + 1` is exactly that termination) — it returns
the tree rooted at that record (the last one with that id, as `byId` is
overwritten in list order) in which, recursively, every node's children are
exactly the flat records whose `parentId` equals the node's id, sorted
ascending by `order`. -/
theorem c3_workflowToTree (w : ProcedureLogicWorkflow) (rootId : String) :
    ((workflowToTree w rootId = none) ↔ ∀ n ∈ w.nodes, n.id ≠ rootId)
    ∧ (∀ flat, w.nodes.reverse.find? (fun n => decide (n.id = rootId)) = some flat →
        buildFits w.nodes (w.nodes.length + 1) flat = true →
        ∃ t, workflowToTree w rootId = some t ∧ matchesSpec w.nodes flat t = true) := by
  constructor
  · rw [workflowToTree]
    cases hf : w.nodes.reverse.find? (fun n => decide (n.id = rootId)) with
    | some flat =>
        simp only [Option.map_some']
        constructor
        · intro h; simp at h
        · intro h
          have hmem : flat ∈ w.nodes.reverse := List.mem_of_find?_eq_some hf
          have hid : flat.id = rootId := by
            have := List.find?_some hf
            simpa using this
          exact absurd hid (h flat (List.mem_reverse.mp hmem))
    | none =>
        simp only [Option.map_none']
        constructor
        · intro _ n hn hid
          have := List.find?_eq_none.mp hf n (List.mem_reverse.mpr hn)
          simp [hid] at this
        · intro _
          trivial
  · intro flat hf hfit
    refine ⟨buildNode w.nodes (w.nodes.length + 1) flat, ?_, ?_⟩
    · rw [workflowToTree, hf]
      rfl
    · exact buildNode_matchesSpec w.nodes _ flat hfit

/-- A two-record document and its root record, for the C3 witness. -/
def c3Doc : ProcedureLogicWorkflow :=
  { nodes := [⟨"r", "R", RECIPE, none, 0, ⟨300, 40⟩, true⟩,
              ⟨"a", "A", PROCEDURE, some "r", 0, ⟨300, 40⟩, false⟩],
    edges := [] }

def c3Root : WorkflowNode := ⟨"r", "R", RECIPE, none, 0, ⟨300, 40⟩, true⟩

/-- Witness for `c3_workflowToTree` on a two-record document. -/
theorem c3_workflowToTree_witness :
    ∃ t, workflowToTree c3Doc "r" = some t ∧
      matchesSpec c3Doc.nodes c3Root t = true := by
  have h1 : List.find? (fun n => decide (n.id = "r")) c3Doc.nodes.reverse =
      some c3Root := by decide
  have h2 : buildFits c3Doc.nodes (c3Doc.nodes.length + 1) c3Root = true := by
    decide
  exact (c3_workflowToTree c3Doc "r").2 c3Root h1 h2

/-! ## C1: round trip — flatten structure lemmas -/

theorem mkRecord_id (csm : CanvasStateMap) (pid : Option String) (i : Nat)
    (t : HierarchyNode) : (mkRecord csm pid i t).id = t.id := rfl

theorem flatNodes_map_id (csm : CanvasStateMap) :
    ∀ t pid i, (flatNodes csm pid i t).map (fun r => r.id) = treeIds t := by
  intro t
  induction t using HierarchyNode.ind' with
  | h nid nm ty cs ih =>
      intro pid i
      rw [flatNodes, List.map_cons, treeIds, mkRecord_id]
      have aux : ∀ l, (∀ c ∈ l, ∀ pid' i',
          (flatNodes csm pid' i' c).map (fun r => r.id) = treeIds c) →
          ∀ p j, (flatNodesList csm p j l).map (fun r => r.id) = treeIdsList l := by
        intro l
        induction l with
        | nil => intro _ _ _; rfl
        | cons c rest ihl =>
            intro hall p j
            rw [flatNodesList, List.map_append, treeIdsList, hall c (by simp) _ _,
              ihl (fun x hx => hall x (by simp [hx])) p (j + 1)]
      rw [aux cs ih nid 0]
      rfl

/-- Under unique ids, every subtree is found by `findNode` at its own id. -/
theorem findNode_of_mem_subtrees :
    ∀ t, (treeIds t).Nodup → ∀ S ∈ allSubtrees t, findNode t S.id = some S := by
  intro t
  induction t using HierarchyNode.ind' with
  | h i n ty cs ih =>
      intro hnd S hS
      rw [allSubtrees] at hS
      rw [treeIds, List.nodup_cons] at hnd
      rcases List.mem_cons.mp hS with h | h
      · subst h
        rw [findNode]
        simp [HierarchyNode.id]
      · obtain ⟨c, hc, hSc⟩ := allSubtreesList_mem_split cs S h
        have hidc : S.id ∈ treeIds c := subtree_id_mem c S hSc
        have hidl : S.id ∈ treeIdsList cs := (treeIds_sublist_of_mem cs c hc).mem hidc
        have hne : i ≠ S.id := fun he => hnd.1 (he ▸ hidl)
        rw [findNode, if_neg hne]
        have aux : ∀ l, (∀ y ∈ l, (treeIds y).Nodup → ∀ S' ∈ allSubtrees y,
            findNode y S'.id = some S') →
            (treeIdsList l).Nodup →
            ∀ c' ∈ l, S ∈ allSubtrees c' → findNodeList l S.id = some S := by
          intro l
          induction l with
          | nil => intro _ _ c' hc' _; simp at hc'
          | cons c0 rest ihl =>
              intro hall hn c' hc' hSc'
              rw [treeIdsList, List.nodup_append] at hn
              rw [findNodeList]
              rcases List.mem_cons.mp hc' with he | he
              · rw [hall c0 (by simp) hn.1 S (he ▸ hSc')]
              · have hS0 : S.id ∉ treeIds c0 := fun hm =>
                  hn.2.2 hm ((treeIds_sublist_of_mem rest c' he).mem
                    (subtree_id_mem c' S hSc'))
                rw [findNode_eq_none c0 S.id hS0]
                exact ihl (fun y hy => hall y (by simp [hy])) hn.2.1 c' he hSc'
        exact aux cs ih hnd.2 c hc hSc

theorem filter_flatNodes_notMem (csm : CanvasStateMap) (q : String) :
    ∀ t pid i, q ∉ treeIds t →
      (flatNodes csm pid i t).filter (fun r => decide (r.parentId = some q)) =
        if pid = some q then [mkRecord csm pid i t] else [] := by
  intro t
  induction t using HierarchyNode.ind' with
  | h nid nm ty cs ih =>
      intro pid i hq
      rw [treeIds] at hq
      simp only [List.mem_cons, not_or] at hq
      have aux : ∀ l, (∀ c ∈ l, ∀ pid' i', q ∉ treeIds c →
          (flatNodes csm pid' i' c).filter (fun r => decide (r.parentId = some q)) =
            if pid' = some q then [mkRecord csm pid' i' c] else []) →
          ∀ p j, q ∉ treeIdsList l → p ≠ q →
          (flatNodesList csm p j l).filter (fun r => decide (r.parentId = some q)) = [] := by
        intro l
        induction l with
        | nil => intro _ _ _ _ _; rfl
        | cons c rest ihl =>
            intro hall p j hm hpq
            rw [treeIdsList] at hm
            simp only [List.mem_append, not_or] at hm
            rw [flatNodesList, List.filter_append,
              hall c (by simp) (some p) j hm.1,
              ihl (fun x hx => hall x (by simp [hx])) p (j + 1) hm.2 hpq]
            simp [hpq]
      rw [flatNodes, List.filter_cons,
        aux cs ih nid 0 hq.2 (fun he => hq.1 he.symm)]
      by_cases hp : pid = some q
      · simp [mkRecord, hp]
      · simp [mkRecord, hp]

theorem filter_flatNodes_found (csm : CanvasStateMap) (q : String) :
    ∀ t pid i X, (treeIds t).Nodup → findNode t q = some X →
      (flatNodes csm pid i t).filter (fun r => decide (r.parentId = some q)) =
        (if pid = some q then [mkRecord csm pid i t] else []) ++
          topRecords csm q 0 X.children := by
  intro t
  induction t using HierarchyNode.ind' with
  | h nid nm ty cs ih =>
      intro pid i X hnd hf
      rw [treeIds, List.nodup_cons] at hnd
      rw [findNode] at hf
      by_cases hq : nid = q
      · rw [if_pos hq] at hf
        injection hf with hf
        subst hf
        have auxEq : ∀ l j, q ∉ treeIdsList l →
            (flatNodesList csm q j l).filter (fun r => decide (r.parentId = some q)) =
              topRecords csm q j l := by
          intro l
          induction l with
          | nil => intro _ _; rfl
          | cons c rest ihl =>
              intro j hm
              rw [treeIdsList] at hm
              simp only [List.mem_append, not_or] at hm
              rw [flatNodesList, List.filter_append,
                filter_flatNodes_notMem csm q c (some q) j hm.1,
                ihl (j + 1) hm.2, topRecords]
              simp
        rw [flatNodes, List.filter_cons, hq]
        rw [auxEq cs 0 (hq ▸ hnd.1)]
        by_cases hp : pid = some q
        · simp [mkRecord, hp, HierarchyNode.children]
        · simp [mkRecord, hp, HierarchyNode.children]
      · rw [if_neg hq] at hf
        have aux : ∀ l, (∀ y ∈ l, ∀ pid' i' X', (treeIds y).Nodup →
            findNode y q = some X' →
            (flatNodes csm pid' i' y).filter (fun r => decide (r.parentId = some q)) =
              (if pid' = some q then [mkRecord csm pid' i' y] else []) ++
                topRecords csm q 0 X'.children) →
            (treeIdsList l).Nodup →
            ∀ p j, p ≠ q → findNodeList l q = some X →
            (flatNodesList csm p j l).filter (fun r => decide (r.parentId = some q)) =
              topRecords csm q 0 X.children := by
          intro l
          induction l with
          | nil => intro _ _ _ _ _ h'; simp [findNodeList] at h'
          | cons c0 rest ihl =>
              intro hall hn p j hpq h'
              rw [treeIdsList, List.nodup_append] at hn
              rw [findNodeList] at h'
              rw [flatNodesList, List.filter_append]
              cases h0 : findNode c0 q with
              | some X0 =>
                  rw [h0] at h'
                  injection h' with h'
                  subst h'
                  have hq0 : q ∈ treeIds c0 :=
                    (findNode_isSome_iff c0 q).mp (by simp [h0])
                  have hqr : q ∉ treeIdsList rest := fun hm => hn.2.2 hq0 hm
                  have haux2 : ∀ c ∈ rest, ∀ pid' i', q ∉ treeIds c →
                      (flatNodes csm pid' i' c).filter
                          (fun r => decide (r.parentId = some q)) =
                        if pid' = some q then [mkRecord csm pid' i' c] else [] :=
                    fun c hc pid' i' hql => filter_flatNodes_notMem csm q c pid' i' hql
                  have hrest : (flatNodesList csm p (j + 1) rest).filter
                      (fun r => decide (r.parentId = some q)) = [] := by
                    have aux0 : ∀ l', ∀ j', q ∉ treeIdsList l' →
                        (flatNodesList csm p j' l').filter
                          (fun r => decide (r.parentId = some q)) = [] := by
                      intro l'
                      induction l' with
                      | nil => intro _ _; rfl
                      | cons cc rr ihr =>
                          intro j' hm
                          rw [treeIdsList] at hm
                          simp only [List.mem_append, not_or] at hm
                          rw [flatNodesList, List.filter_append,
                            filter_flatNodes_notMem csm q cc (some p) j' hm.1,
                            ihr (j' + 1) hm.2]
                          simp [hpq]
                      -- end inner induction
                    exact aux0 rest (j + 1) hqr
                  rw [hrest,
                    hall c0 (by simp) (some p) j X0 hn.1 h0]
                  simp [hpq]
              | none =>
                  rw [h0] at h'
                  have hq0 : q ∉ treeIds c0 := fun hm => by
                    have := (findNode_isSome_iff c0 q).mpr hm
                    rw [h0] at this
                    simp at this
                  rw [filter_flatNodes_notMem csm q c0 (some p) j hq0]
                  rw [ihl (fun y hy => hall y (by simp [hy])) hn.2.1 p (j + 1) hpq h']
                  simp [hpq]
        rw [flatNodes, List.filter_cons]
        rw [aux cs (fun y hy pid' i' X' a b => ih y hy pid' i' X' a b) hnd.2 nid 0
          (fun he => hq he) hf]
        by_cases hp : pid = some q
        · simp [mkRecord, hp]
        · simp [mkRecord, hp]

theorem topRecords_map_id (csm : CanvasStateMap) (p : String) :
    ∀ l i, (topRecords csm p i l).map (fun r => r.id) = l.map HierarchyNode.id := by
  intro l
  induction l with
  | nil => intro _; rfl
  | cons c rest ih =>
      intro i
      rw [topRecords, List.map_cons, List.map_cons, mkRecord_id, ih]

theorem topRecords_order_ge (csm : CanvasStateMap) (p : String) :
    ∀ l i, ∀ r ∈ topRecords csm p i l, (i : Int) ≤ r.order := by
  intro l
  induction l with
  | nil => intro _ r hr; simp [topRecords] at hr
  | cons c rest ih =>
      intro i r hr
      rw [topRecords] at hr
      rcases List.mem_cons.mp hr with h | h
      · subst h
        simp [mkRecord]
      · have := ih (i + 1) r h
        omega

theorem topRecords_sorted (csm : CanvasStateMap) (p : String) :
    ∀ l i, List.Sorted (fun a b : WorkflowNode => a.order ≤ b.order)
      (topRecords csm p i l) := by
  intro l
  induction l with
  | nil => intro _; simp [topRecords, List.Sorted]
  | cons c rest ih =>
      intro i
      rw [topRecords, List.sorted_cons]
      refine ⟨fun b hb => ?_, ih (i + 1)⟩
      have := topRecords_order_ge csm p rest (i + 1) b hb
      have hc : (mkRecord csm (some p) i c).order = (i : Int) := rfl
      rw [hc]
      omega

theorem topRecords_mem_get (csm : CanvasStateMap) (p : String) :
    ∀ l i j c, l[j]? = some c → mkRecord csm (some p) (i + j) c ∈ topRecords csm p i l := by
  intro l
  induction l with
  | nil => intro _ j _ h; simp at h
  | cons c0 rest ih =>
      intro i j c h
      cases j with
      | zero =>
          simp only [List.getElem?_cons_zero, Option.some.injEq] at h
          subst h
          rw [topRecords]
          exact List.mem_cons.mpr (Or.inl (by rw [Nat.add_zero]))
      | succ j' =>
          simp only [List.getElem?_cons_succ] at h
          rw [topRecords]
          refine List.mem_cons.mpr (Or.inr ?_)
          have := ih (i + 1) j' c h
          have harith : i + 1 + j' = i + (j' + 1) := by omega
          rwa [harith] at this

/-- The sorted child-record selection on a flattened document picks exactly
the records of the subtree's children, in order. -/
theorem childRecordsOf_flatten (T : HierarchyNode) (csm : CanvasStateMap)
    (hnd : (treeIds T).Nodup) (S : HierarchyNode) (hS : S ∈ allSubtrees T) :
    childRecordsOf (flatNodes csm none 0 T) S.id = topRecords csm S.id 0 S.children := by
  have hf := findNode_of_mem_subtrees T hnd S hS
  rw [childRecordsOf, filter_flatNodes_found csm S.id T none 0 S hnd hf]
  have : (if (none : Option String) = some S.id
      then [mkRecord csm none 0 T] else []) = [] := by simp
  rw [this, List.nil_append]
  exact List.Sorted.insertionSort_eq (topRecords_sorted csm S.id S.children 0)

theorem heightH_le_of_mem :
    ∀ l (c : HierarchyNode), c ∈ l → heightH c ≤ heightHList l := by
  intro l
  induction l with
  | nil => intro c hc; simp at hc
  | cons c0 rest ih =>
      intro c hc
      rw [heightHList]
      rcases List.mem_cons.mp hc with h | h
      · subst h; omega
      · have := ih c h; omega

theorem heightH_le_ids_length :
    ∀ t, heightH t ≤ (treeIds t).length := by
  intro t
  induction t using HierarchyNode.ind' with
  | h i n ty cs ih =>
      rw [heightH, treeIds, List.length_cons]
      have aux : ∀ l, (∀ c ∈ l, heightH c ≤ (treeIds c).length) →
          heightHList l ≤ (treeIdsList l).length := by
        intro l
        induction l with
        | nil => intro _; simp [heightHList, treeIdsList]
        | cons c rest ihl =>
            intro hall
            rw [heightHList, treeIdsList, List.length_append]
            have h1 := hall c (by simp)
            have h2 := ihl (fun x hx => hall x (by simp [hx]))
            omega
      have := aux cs ih
      omega

theorem map_id_sublist_treeIdsList :
    ∀ l : List HierarchyNode, List.Sublist (l.map HierarchyNode.id) (treeIdsList l) := by
  intro l
  induction l with
  | nil => simp [treeIdsList]
  | cons c0 rest ih =>
      rw [List.map_cons, treeIdsList]
      cases c0 with
      | mk ci cn cty ccs =>
          rw [treeIds, List.cons_append]
          simp only [HierarchyNode.id]
          exact List.Sublist.cons₂ _ (ih.trans (List.sublist_append_right _ _))

theorem find?_append_none {α : Type} (p : α → Bool) (l1 l2 : List α)
    (h : l1.find? p = none) : (l1 ++ l2).find? p = l2.find? p := by
  induction l1 with
  | nil => rfl
  | cons a rest ih =>
      rw [List.cons_append]
      cases hp : p a with
      | true =>
          rw [List.find?_cons_of_pos _ hp] at h
          simp at h
      | false =>
          rw [List.find?_cons_of_neg _ (by simp [hp])] at h
          rw [List.find?_cons_of_neg _ (by simp [hp])]
          exact ih h

/-- Looking up the root id in the reversed flattened list finds the root's
own record (the only record carrying the root id, by uniqueness). -/
theorem flatten_find_root (T : HierarchyNode) (csm : CanvasStateMap)
    (hnd : (treeIds T).Nodup) :
    (flatNodes csm none 0 T).reverse.find? (fun r => decide (r.id = T.id)) =
      some (mkRecord csm none 0 T) := by
  cases T with
  | mk i n ty cs =>
      have hmap := flatNodes_map_id csm (.mk i n ty cs) none 0
      rw [flatNodes, List.map_cons, treeIds, mkRecord_id] at hmap
      have htail : (flatNodesList csm i 0 cs).map (fun r => r.id) = treeIdsList cs := by
        injection hmap
      rw [treeIds, List.nodup_cons] at hnd
      rw [flatNodes, List.reverse_cons]
      have hnone : (flatNodesList csm i 0 cs).reverse.find?
          (fun r => decide (r.id = (HierarchyNode.mk i n ty cs).id)) = none := by
        apply List.find?_eq_none.mpr
        intro x hx
        have hx' : x ∈ flatNodesList csm i 0 cs := List.mem_reverse.mp hx
        have hxid : x.id ∈ treeIdsList cs := by
          rw [← htail]
          exact List.mem_map.mpr ⟨x, hx', rfl⟩
        simp only [HierarchyNode.id, decide_eq_true_eq]
        exact fun he => hnd.1 (he ▸ hxid)
      rw [find?_append_none _ _ _ hnone, List.find?_cons]
      have : (decide ((mkRecord csm none 0 (.mk i n ty cs)).id =
          (HierarchyNode.mk i n ty cs).id)) = true := by
        simp [mkRecord_id]
      rw [this]

/-- Rebuilding the record of any subtree of a uniquely-identified flattened
tree, with enough fuel, returns that subtree. -/
theorem roundtrip_buildNode (T : HierarchyNode) (csm : CanvasStateMap)
    (hnd : (treeIds T).Nodup) :
    ∀ S, S ∈ allSubtrees T → ∀ fuel, heightH S ≤ fuel → ∀ pid i,
      buildNode (flatNodes csm none 0 T) fuel (mkRecord csm pid i S) = S := by
  intro S
  induction S using HierarchyNode.ind' with
  | h si sn sty scs ih =>
      intro hmem fuel hfuel pid i
      cases fuel with
      | zero => rw [heightH] at hfuel; omega
      | succ fuel' =>
          rw [buildNode]
          have hi : (mkRecord csm pid i (.mk si sn sty scs)).id = si := rfl
          have hn : (mkRecord csm pid i (.mk si sn sty scs)).name = sn := rfl
          have ht : (mkRecord csm pid i (.mk si sn sty scs)).type = sty := rfl
          rw [hi, hn, ht]
          have hch : childRecordsOf (flatNodes csm none 0 T) si =
              topRecords csm si 0 scs := by
            have := childRecordsOf_flatten T csm hnd (.mk si sn sty scs) hmem
            simpa [HierarchyNode.id, HierarchyNode.children] using this
          rw [hch]
          have hhl : heightHList scs ≤ fuel' := by
            rw [heightH] at hfuel
            omega
          have aux : ∀ l, (∀ c ∈ l, c ∈ allSubtrees T ∧ heightH c ≤ fuel' ∧
              (∀ fuel0, heightH c ≤ fuel0 → ∀ pid' i',
                buildNode (flatNodes csm none 0 T) fuel0 (mkRecord csm pid' i' c) = c)) →
              ∀ j, (topRecords csm si j l).map
                (buildNode (flatNodes csm none 0 T) fuel') = l := by
            intro l
            induction l with
            | nil => intro _ _; rfl
            | cons c rest ihl =>
                intro hall j
                rw [topRecords, List.map_cons]
                obtain ⟨_, hh, hb⟩ := hall c (by simp)
                rw [hb fuel' hh (some si) j,
                  ihl (fun x hx => hall x (by simp [hx])) (j + 1)]
          rw [aux scs (fun c hc => ⟨children_mem_allSubtrees T (.mk si sn sty scs)
            hmem c hc, le_trans (heightH_le_of_mem scs c hc) hhl,
            fun fuel0 hf0 pid' i' => ih c hc
              (children_mem_allSubtrees T (.mk si sn sty scs) hmem c hc)
              fuel0 hf0 pid' i'⟩) 0]

/-! ## C1: the round trip -/

/-- **C1.**  For every tree with unique node ids and every canvas-state map,
rebuilding the flattened document yields exactly the original tree (same ids,
names, kinds, child order); and for every level of the tree, every placed
child's rebuilt position equals the explicitly recorded position in the
original canvas-state map when one was set, and the deterministic fallback
computed from the child's sibling order otherwise. -/
theorem c1_roundtrip (T : HierarchyNode) (C : CanvasStateMap)
    (hnd : (treeIds T).Nodup) :
    workflowToTree (treeToWorkflow T C) T.id = some T
    ∧ (∀ X ∈ allSubtrees T, ∀ (j : Nat) (c : HierarchyNode),
        X.children[j]? = some c → ∀ s, recGet C X.id = some s →
        c.id ∈ s.placedIds →
        ∃ lv, recGet (workflowToCanvasStateMap (treeToWorkflow T C)) X.id = some lv ∧
          recGet lv.nodePositions c.id =
            some ((recGet s.nodePositions c.id).getD (fallbackPos (j : Int)))) := by
  constructor
  · rw [workflowToTree]
    have hnodes : (treeToWorkflow T C).nodes = flatNodes C none 0 T := rfl
    rw [hnodes, flatten_find_root T C hnd]
    have hlen : heightH T ≤ (flatNodes C none 0 T).length + 1 := by
      have h1 := heightH_le_ids_length T
      have h2 : (flatNodes C none 0 T).length = (treeIds T).length := by
        rw [← flatNodes_map_id C T none 0, List.length_map]
      omega
    rw [Option.map_some']
    rw [roundtrip_buildNode T C hnd T (mem_allSubtrees_self T)
      ((flatNodes C none 0 T).length + 1) hlen none 0]
  · intro X hX j c hj s hs hplaced
    have hnodes : (treeToWorkflow T C).nodes = flatNodes C none 0 T := rfl
    have hfilter : (flatNodes C none 0 T).filter
        (fun r => decide (r.parentId = some X.id)) =
        topRecords C X.id 0 X.children := by
      have hf := findNode_of_mem_subtrees T hnd X hX
      rw [filter_flatNodes_found C X.id T none 0 X hnd hf]
      simp
    have hcmem : c ∈ X.children := by
      obtain ⟨hlt, he⟩ := List.getElem?_eq_some.mp hj
      exact he ▸ List.getElem_mem hlt
    have hne : topRecords C X.id 0 X.children ≠ [] := by
      intro hnil
      have : (topRecords C X.id 0 X.children).map (fun r => r.id) = [] := by
        rw [hnil]; rfl
      rw [topRecords_map_id] at this
      rw [List.map_eq_nil_iff] at this
      rw [this] at hcmem
      simp at hcmem
    -- the node-phase level
    have hsome0 : ((flatNodes C none 0 T).filter
        (fun r => decide (r.parentId = some X.id))).foldl levelStepN
          (recGet ([] : CanvasStateMap) X.id) |>.isSome := by
      rw [hfilter]
      exact levelFoldN_isSome_of_ne_nil _ _ hne
    obtain ⟨lv0, hlv0⟩ := Option.isSome_iff_exists.mp hsome0
    -- the full map at X.id
    have hM : recGet (workflowToCanvasStateMap (treeToWorkflow T C)) X.id =
        ((treeToWorkflow T C).edges.filter
          (fun e => decide (edgeLevel (flatNodes C none 0 T) e = some X.id))).foldl
          levelStepE (some lv0) := by
      rw [workflowToCanvasStateMap, edgePhase_recGet, hnodes, nodePhase_recGet, hlv0]
    have hsome : (recGet (workflowToCanvasStateMap (treeToWorkflow T C)) X.id).isSome := by
      rw [hM]
      exact edgeFold_isSome_of_isSome _ _ (by simp)
    obtain ⟨lv, hlv⟩ := Option.isSome_iff_exists.mp hsome
    refine ⟨lv, hlv, ?_⟩
    -- positions survive the edge phase
    have hfields := edgeFold_fields _ _ _ (hM ▸ hlv)
    have hpos_lv : lv.nodePositions = lv0.nodePositions := by
      have := hfields.2.1
      simpa using this
    -- characterize the node-phase positions
    have hpos0 : lv0.nodePositions =
        ((topRecords C X.id 0 X.children).filter (fun n => n.placed)).foldl
          (fun acc r => recSet acc r.id r.position) [] := by
      have := levelFoldN_nodePositions ((flatNodes C none 0 T).filter
        (fun r => decide (r.parentId = some X.id))) (recGet ([] : CanvasStateMap) X.id)
      rw [hlv0] at this
      simpa [hfilter, emptyLevel, recGet] using this
    -- the record of the placed child
    have hrec : mkRecord C (some X.id) j c ∈ topRecords C X.id 0 X.children := by
      have := topRecords_mem_get C X.id X.children 0 j c hj
      simpa using this
    have hrplaced : (mkRecord C (some X.id) j c).placed = true := by
      simp only [mkRecord]
      rw [hs]
      simpa using hplaced
    have hrfil : mkRecord C (some X.id) j c ∈
        (topRecords C X.id 0 X.children).filter (fun n => n.placed) :=
      List.mem_filter.mpr ⟨hrec, hrplaced⟩
    -- unique ids among the filtered records
    have hidsnd : (((topRecords C X.id 0 X.children).filter
        (fun n => n.placed)).map (fun r => r.id)).Nodup := by
      have hsub1 : List.Sublist ((topRecords C X.id 0 X.children).filter
          (fun n => n.placed)) (topRecords C X.id 0 X.children) :=
        List.filter_sublist _
      have hsub2 := hsub1.map (fun r : WorkflowNode => r.id)
      rw [topRecords_map_id] at hsub2
      have hx_nd : (treeIds X).Nodup := (treeIds_sublist T X hX).nodup hnd
      have hchildren_nd : (X.children.map HierarchyNode.id).Nodup := by
        cases X with
        | mk xi xn xty xcs =>
            rw [treeIds, List.nodup_cons] at hx_nd
            show (xcs.map HierarchyNode.id).Nodup
            exact (map_id_sublist_treeIdsList xcs).nodup hx_nd.2
      exact hsub2.nodup hchildren_nd
    -- read off the stored position
    have hfinal := recGet_posFold_mem _ [] _ hidsnd hrfil
    rw [← hpos0] at hfinal
    rw [hpos_lv]
    have hrid : (mkRecord C (some X.id) j c).id = c.id := rfl
    rw [hrid] at hfinal
    rw [hfinal]
    have hrpos : (mkRecord C (some X.id) j c).position =
        (recGet s.nodePositions c.id).getD (fallbackPos (j : Int)) := by
      simp [mkRecord, hs]
    rw [hrpos]

/-- Concrete tree and canvas map for the C1 witness. -/
def c1T : HierarchyNode := .mk "r" "R" RECIPE [.mk "a" "A" PROCEDURE []]

def c1C : CanvasStateMap := [("r", ⟨["a"], [("a", ⟨7, 9⟩)], []⟩)]

/-- Witness for `c1_roundtrip`: the two-node tree survives the round trip and
the placed child's explicitly-set position is restored. -/
theorem c1_roundtrip_witness :
    workflowToTree (treeToWorkflow c1T c1C) "r" = some c1T ∧
    ∃ lv, recGet (workflowToCanvasStateMap (treeToWorkflow c1T c1C)) "r" = some lv ∧
      recGet lv.nodePositions "a" = some ⟨7, 9⟩ := by
  have h := c1_roundtrip c1T c1C (by decide)
  refine ⟨h.1, ?_⟩
  have h2 := h.2 c1T (mem_allSubtrees_self c1T) 0 (.mk "a" "A" PROCEDURE [])
    (by decide) ⟨["a"], [("a", ⟨7, 9⟩)], []⟩ (by decide) (by decide)
  simpa using h2

/-! ## Structure of the flattened node list -/

theorem flatNodes_mem (csm : CanvasStateMap) :
    ∀ t pid i wn, wn ∈ flatNodes csm pid i t →
      wn = mkRecord csm pid i t ∨
      ∃ P j c, P ∈ allSubtrees t ∧ P.children[j]? = some c ∧
        wn = mkRecord csm (some P.id) j c := by
  intro t
  induction t using HierarchyNode.ind' with
  | h nid nm ty cs ih =>
      intro pid i wn hw
      rw [flatNodes] at hw
      rcases List.mem_cons.mp hw with h | h
      · exact Or.inl h
      · right
        have aux : ∀ l, (∀ c ∈ l, ∀ pid' i' wn',
            wn' ∈ flatNodes csm pid' i' c →
            wn' = mkRecord csm pid' i' c ∨
            ∃ P j c', P ∈ allSubtrees c ∧ P.children[j]? = some c' ∧
              wn' = mkRecord csm (some P.id) j c') →
            ∀ k wn', wn' ∈ flatNodesList csm nid k l →
            (∃ j c, l[j]? = some c ∧ wn' = mkRecord csm (some nid) (k + j) c) ∨
            (∃ P j c, P ∈ allSubtreesList l ∧ P.children[j]? = some c ∧
              wn' = mkRecord csm (some P.id) j c) := by
          intro l
          induction l with
          | nil => intro _ k wn' hw'; simp [flatNodesList] at hw'
          | cons c rest ihl =>
              intro hall k wn' hw'
              rw [flatNodesList, List.mem_append] at hw'
              rcases hw' with hw' | hw'
              · rcases hall c (by simp) _ _ _ hw' with heq | hdeep
                · exact Or.inl ⟨0, c, by simp, by simpa using heq⟩
                · obtain ⟨P, j, c', hP, hj, he⟩ := hdeep
                  exact Or.inr ⟨P, j, c', by
                    rw [allSubtreesList, List.mem_append]; exact Or.inl hP, hj, he⟩
              · rcases ihl (fun x hx => hall x (by simp [hx])) (k + 1) wn' hw' with
                  ⟨j, c', hj, he⟩ | ⟨P, j, c', hP, hj, he⟩
                · refine Or.inl ⟨j + 1, c', by simpa using hj, ?_⟩
                  rw [he]
                  congr 1
                  omega
                · exact Or.inr ⟨P, j, c', by
                    rw [allSubtreesList, List.mem_append]; exact Or.inr hP, hj, he⟩
        rcases aux cs ih 0 wn h with ⟨j, c, hj, he⟩ | ⟨P, j, c, hP, hj, he⟩
        · refine ⟨.mk nid nm ty cs, j, c, ?_, by simpa using hj, by simpa using he⟩
          rw [allSubtrees]
          exact List.mem_cons_self _ _
        · refine ⟨P, j, c, ?_, hj, he⟩
          rw [allSubtrees]
          exact List.mem_cons_of_mem _ hP

/-! ## C4: placed flag and position of every emitted record -/

/-- **C4.**  In the document produced by `treeToWorkflow T C`, every emitted
flat node record has `placed = true` iff it is the root record (`parentId`
null, and only the root is emitted with a null parent) or its id is in the
placed-id set of its parent's canvas-level state in `C`; and its position is
the parent level's recorded position for its id when one exists, otherwise
the deterministic fallback computed purely from its sibling order. -/
theorem c4_placed_and_position (T : HierarchyNode) (C : CanvasStateMap) :
    ∀ wn ∈ (treeToWorkflow T C).nodes,
      (wn.parentId = none → wn.id = T.id ∧ wn.placed = true ∧
        wn.position = fallbackPos wn.order) ∧
      (wn.placed = true ↔ (wn.parentId = none ∨
        ∃ p s, wn.parentId = some p ∧ recGet C p = some s ∧
          s.placedIds.contains wn.id = true)) ∧
      (∀ p, wn.parentId = some p →
        wn.position =
          ((recGet C p).bind (fun s => recGet s.nodePositions wn.id)).getD
            (fallbackPos wn.order)) := by
  intro wn hw
  rcases flatNodes_mem C T none 0 wn hw with heq | ⟨P, j, c, _, _, heq⟩
  · subst heq
    cases T with
    | mk nid nm ty cs =>
        refine ⟨fun _ => ⟨rfl, rfl, ?_⟩, ?_, ?_⟩
        · simp [mkRecord, fallbackPos, HierarchyNode.id, HierarchyNode.name,
            HierarchyNode.type]
        · simp [mkRecord]
        · intro p hp
          simp [mkRecord] at hp
  · subst heq
    refine ⟨by simp [mkRecord], ?_, ?_⟩
    · simp only [mkRecord]
      cases hc : recGet C P.id with
      | none => simp [hc]
      | some s =>
          constructor
          · intro h
            refine Or.inr ⟨P.id, s, rfl, hc, ?_⟩
            simpa using h
          · rintro (h | ⟨p, s', hp, hs', hcont⟩)
            · simp at h
            · have hp' : P.id = p := by simpa using hp
              subst hp'
              rw [hc] at hs'
              have hss : s = s' := by injection hs'
              subst hss
              simpa using hcont
    · intro p hp
      simp only [mkRecord] at hp ⊢
      injection hp with hp
      subst hp
      rfl

/-- Concrete tree, canvas map and emitted record for the C4 witness. -/
def c4T : HierarchyNode := .mk "r" "R" RECIPE [.mk "a" "A" PROCEDURE []]

def c4C : CanvasStateMap := [("r", ⟨["a"], [("a", ⟨1, 2⟩)], []⟩)]

def c4Rec : WorkflowNode := mkRecord c4C (some "r") 0 (.mk "a" "A" PROCEDURE [])

/-- Witness for `c4_placed_and_position` at a concrete emitted record. -/
theorem c4_placed_and_position_witness :
    (c4Rec.parentId = none → c4Rec.id = c4T.id ∧ c4Rec.placed = true ∧
      c4Rec.position = fallbackPos c4Rec.order) ∧
    (c4Rec.placed = true ↔ (c4Rec.parentId = none ∨
      ∃ p s, c4Rec.parentId = some p ∧ recGet c4C p = some s ∧
        s.placedIds.contains c4Rec.id = true)) ∧
    (∀ p, c4Rec.parentId = some p →
      c4Rec.position =
        ((recGet c4C p).bind (fun s => recGet s.nodePositions c4Rec.id)).getD
          (fallbackPos c4Rec.order)) :=
  c4_placed_and_position c4T c4C c4Rec (by decide)

/-- The editor's live state: the tree, the canvas-state map, and the snapshot
captured at load time and after each successful save (`JSON.stringify` of the
`{tree, canvasStateMap}` pair; stringification is injective on this data, so
the snapshot is modelled as the pair itself). -/
structure Session where
  tree : HierarchyNode
  canvasStateMap : CanvasStateMap
  savedSnapshot : HierarchyNode × CanvasStateMap
deriving DecidableEq

/-- `isDirty` from `WorkflowEditor.tsx`: recomputed on demand as inequality of
the serialized live pair against the last snapshot. -/
def isDirty (s : Session) : Bool :=
  decide (¬ ((s.tree, s.canvasStateMap) = s.savedSnapshot))

/-- The load effect: restore the tree (falling back to a single-node RECIPE
root when the document is absent, empty, or its root record is missing) and
the canvas-state map, then freeze the snapshot from the same values. -/
def loadSession (recipeId recipeName : String)
    (doc : Option ProcedureLogicWorkflow) : Session :=
  match doc with
  | some w =>
      if w.nodes ≠ [] then
        let root := (workflowToTree w recipeId).getD
          (.mk recipeId recipeName HierarchyNodeType.RECIPE [])
        let csm := workflowToCanvasStateMap w
        { tree := root, canvasStateMap := csm, savedSnapshot := (root, csm) }
      else
        let root : HierarchyNode := .mk recipeId recipeName HierarchyNodeType.RECIPE []
        { tree := root, canvasStateMap := [], savedSnapshot := (root, []) }
  | none =>
      let root : HierarchyNode := .mk recipeId recipeName HierarchyNodeType.RECIPE []
      { tree := root, canvasStateMap := [], savedSnapshot := (root, []) }

/-- `handleCanvasStateChange`: `setCanvasStateMap(prev => ({...prev, [parentId]: state}))`. -/
def mutateCanvas (s : Session) (parentId : String) (state : CanvasLevelState) :
    Session :=
  { s with canvasStateMap := recSet s.canvasStateMap parentId state }

/-- `handleConfirmAdd` as a session transition (tree mutation). -/
def sessionConfirmAdd (s : Session) (selectedId newElementId newElementName : String) :
    Session :=
  { s with tree := confirmAdd s.tree selectedId newElementId newElementName }

/-- `handleSave` when the store call succeeds: guarded by `isDirty`, then the
snapshot is reset to the live pair. -/
def saveOk (s : Session) : Session :=
  if isDirty s then { s with savedSnapshot := (s.tree, s.canvasStateMap) } else s

/-- `handleSave` when the store call fails: the live state and the snapshot
are left untouched. -/
def saveFail (s : Session) : Session := s

/-! ## C2: the dirty/save protocol -/

/-- **C2** (amended).  Immediately after Load the dirty flag is false; the
dirty flag is at all times exactly the inequality of the live
`(tree, canvasStateMap)` pair with the last snapshot, recomputed on demand;
hence a canvas or tree mutation that makes the live pair differ from the
snapshot leaves the flag true; after a Save that succeeds the flag is false
(the snapshot is reset to the live pair, and a non-dirty save is a no-op); a
failed Save leaves the whole session state — and hence the flag — unchanged. -/
theorem c2_dirty_protocol :
    (∀ rid rname doc, isDirty (loadSession rid rname doc) = false)
    ∧ (∀ s : Session, isDirty s = true ↔ (s.tree, s.canvasStateMap) ≠ s.savedSnapshot)
    ∧ (∀ s pid st, (s.tree, recSet s.canvasStateMap pid st) ≠ s.savedSnapshot →
        isDirty (mutateCanvas s pid st) = true)
    ∧ (∀ s sel nid nname,
        (confirmAdd s.tree sel nid nname, s.canvasStateMap) ≠ s.savedSnapshot →
        isDirty (sessionConfirmAdd s sel nid nname) = true)
    ∧ (∀ s, isDirty (saveOk s) = false)
    ∧ (∀ s, saveFail s = s) := by
  refine ⟨?_, ?_, ?_, ?_, ?_, ?_⟩
  · intro rid rname doc
    cases doc with
    | none => simp [loadSession, isDirty]
    | some w =>
        by_cases h : w.nodes = [] <;> simp [loadSession, isDirty, h]
  · intro s
    simp [isDirty]
  · intro s pid st h
    simpa [isDirty, mutateCanvas] using h
  · intro s sel nid nname h
    simpa [isDirty, sessionConfirmAdd] using h
  · intro s
    by_cases h : (s.tree, s.canvasStateMap) = s.savedSnapshot
    · have hd : isDirty s = false := by simp [isDirty, h]
      simp [saveOk, hd, isDirty, h]
    · have hd : isDirty s = true := by simp [isDirty, h]
      simp [saveOk, hd, isDirty, h]
  · intro s
    rfl

/-- Concrete session for the C2 witness. -/
def c2SessionW : Session :=
  { tree := .mk "r" "R" RECIPE [], canvasStateMap := [],
    savedSnapshot := (.mk "r" "R" RECIPE [], []) }

/-- Witness for `c2_dirty_protocol` at a concrete session: a canvas mutation
and a tree insertion that change the live pair both leave the flag true. -/
theorem c2_dirty_protocol_witness :
    isDirty (mutateCanvas c2SessionW "r" emptyLevel) = true ∧
    isDirty (sessionConfirmAdd c2SessionW "r" "x" "X") = true :=
  ⟨c2_dirty_protocol.2.2.1 c2SessionW "r" emptyLevel (by decide),
   c2_dirty_protocol.2.2.2.1 c2SessionW "r" "x" "X" (by decide)⟩

/-- A persisted document with one placed child, used against C2 as stated. -/
def c2Doc : ProcedureLogicWorkflow :=
  { nodes := [⟨"r", "R", RECIPE, none, 0, ⟨300, 40⟩, true⟩,
              ⟨"a", "A", PROCEDURE, some "r", 0, ⟨1, 2⟩, true⟩],
    edges := [] }

def c2Level0 : CanvasLevelState := ⟨["a"], [("a", ⟨1, 2⟩)], []⟩

def c2Level1 : CanvasLevelState := ⟨["a"], [("a", ⟨5, 5⟩)], []⟩

def c2Session1 : Session :=
  mutateCanvas (loadSession "r" "R" (some c2Doc)) "r" c2Level1

/-- **C2 counterexample.**  "After any mutation of ... any canvas-level state
the dirty flag is true" fails on the code: starting from a loaded session,
mutating level `"r"` to a new value makes the session dirty, but a second
mutation that changes the canvas-level state back to its snapshot value leaves
the dirty flag false, even though it is a genuine canvas mutation (the level's
value changes). -/
theorem c2_dirty_counterexample :
    isDirty c2Session1 = true ∧
    (mutateCanvas c2Session1 "r" c2Level0).canvasStateMap ≠ c2Session1.canvasStateMap ∧
    isDirty (mutateCanvas c2Session1 "r" c2Level0) = false := by
  decide

/-! ## C9: a canvas level exists for every non-null parent id -/

/-- **C9.**  The map returned by `workflowToCanvasStateMap` contains an entry
for every id that occurs as a non-null `parentId` of some flat node record,
even when no child of that parent is placed and no edge resolves to that
level (the first loop creates the entry before checking `placed`). -/
theorem c9_level_exists (w : ProcedureLogicWorkflow) (wn : WorkflowNode) (p : String)
    (hmem : wn ∈ w.nodes) (hp : wn.parentId = some p) :
    (recGet (workflowToCanvasStateMap w) p).isSome := by
  unfold workflowToCanvasStateMap
  rw [edgePhase_recGet]
  apply edgeFold_isSome_of_isSome
  rw [nodePhase_recGet]
  apply levelFoldN_isSome_of_ne_nil
  intro hnil
  have hin : wn ∈ w.nodes.filter (fun n => decide (n.parentId = some p)) :=
    List.mem_filter.mpr ⟨hmem, by simp [hp]⟩
  rw [hnil] at hin
  simp at hin

/-- A document whose single child is unplaced and whose level has no edges. -/
def c9Doc : ProcedureLogicWorkflow :=
  { nodes := [⟨"r", "R", RECIPE, none, 0, ⟨300, 40⟩, true⟩,
              ⟨"a", "A", PROCEDURE, some "r", 0, ⟨300, 40⟩, false⟩],
    edges := [] }

/-- Witness for `c9_level_exists`: the level `"r"` exists in the rebuilt map
even though its only child is unplaced and it owns no edges. -/
theorem c9_level_exists_witness :
    (recGet (workflowToCanvasStateMap c9Doc) "r").isSome :=
  c9_level_exists c9Doc ⟨"a", "A", PROCEDURE, some "r", 0, ⟨300, 40⟩, false⟩ "r"
    (by decide) (by decide)

/-! ## C10: placed flag gates the placed-id set and the position table -/

/-- **C10.**  `workflowToCanvasStateMap` records a node id in its level's
placed-id set, and its position in the level's position table, exactly for the
flat records whose `placed` flag is true: every placed record with a non-null
parent contributes its id and a position to that parent's level, and
conversely every placed-id entry and every stored position of every level in
the rebuilt map comes from such a placed record (positions of unplaced
records appear nowhere). -/
theorem c10_placed_gates_state (w : ProcedureLogicWorkflow) :
    (∀ wn ∈ w.nodes, ∀ p, wn.parentId = some p → wn.placed = true →
       ∃ s, recGet (workflowToCanvasStateMap w) p = some s ∧
         wn.id ∈ s.placedIds ∧ (recGet s.nodePositions wn.id).isSome)
    ∧ (∀ p s, recGet (workflowToCanvasStateMap w) p = some s →
        (∀ pid ∈ s.placedIds,
          ∃ wn ∈ w.nodes, wn.parentId = some p ∧ wn.placed = true ∧ wn.id = pid)
        ∧ (∀ pid pos, recGet s.nodePositions pid = some pos →
          ∃ wn ∈ w.nodes, wn.parentId = some p ∧ wn.placed = true ∧
            wn.id = pid ∧ wn.position = pos)) := by
  have hchar : ∀ p s, recGet (workflowToCanvasStateMap w) p = some s →
      s.placedIds =
        (((w.nodes.filter (fun n => decide (n.parentId = some p))).filter
            (fun n => n.placed)).map (fun n => n.id)) ∧
      s.nodePositions =
        ((w.nodes.filter (fun n => decide (n.parentId = some p))).filter
            (fun n => n.placed)).foldl
          (fun acc r => recSet acc r.id r.position) [] := by
    intro p s hs
    unfold workflowToCanvasStateMap at hs
    rw [edgePhase_recGet, nodePhase_recGet] at hs
    obtain ⟨h1, h2, _⟩ := edgeFold_fields _ _ _ hs
    constructor
    · rw [h1, levelFoldN_placedIds]
      simp [emptyLevel, recGet, List.filter_filter]
    · rw [h2, levelFoldN_nodePositions]
      simp [emptyLevel, recGet, List.filter_filter]
  constructor
  · intro wn hmem p hp hpl
    have hsome : (recGet (workflowToCanvasStateMap w) p).isSome :=
      c9_level_exists w wn p hmem hp
    obtain ⟨s, hs⟩ := Option.isSome_iff_exists.mp hsome
    obtain ⟨h1, h2⟩ := hchar p s hs
    have hfil : wn ∈ (w.nodes.filter (fun n => decide (n.parentId = some p))).filter
        (fun n => n.placed) :=
      List.mem_filter.mpr ⟨List.mem_filter.mpr ⟨hmem, by simp [hp]⟩, hpl⟩
    refine ⟨s, hs, ?_, ?_⟩
    · rw [h1]
      exact List.mem_map.mpr ⟨wn, hfil, rfl⟩
    · rw [h2]
      exact recGet_posFold_isSome _ _ _ (List.mem_map.mpr ⟨wn, hfil, rfl⟩)
  · intro p s hs
    obtain ⟨h1, h2⟩ := hchar p s hs
    constructor
    · intro pid hpid
      rw [h1] at hpid
      obtain ⟨wn, hwn, hid⟩ := List.mem_map.mp hpid
      have hf2 := List.mem_filter.mp hwn
      have hf1 := List.mem_filter.mp hf2.1
      exact ⟨wn, hf1.1, by simpa using hf1.2, hf2.2, hid⟩
    · intro pid pos hpos
      rw [h2] at hpos
      rcases recGet_posFold_source _ _ _ _ hpos with hsrc | hbase
      · obtain ⟨r, hr, hid, hposr⟩ := hsrc
        have hf2 := List.mem_filter.mp hr
        have hf1 := List.mem_filter.mp hf2.1
        exact ⟨r, hf1.1, by simpa using hf1.2, hf2.2, hid, hposr⟩
      · simp [recGet] at hbase

/-- Witness for `c10_placed_gates_state` on a concrete document: the placed
child appears with its position, and the only placed-id entry of the level
comes from it. -/
theorem c10_placed_gates_state_witness :
    ∃ s, recGet (workflowToCanvasStateMap c2Doc) "r" = some s ∧
      "a" ∈ s.placedIds ∧ (recGet s.nodePositions "a").isSome :=
  (c10_placed_gates_state c2Doc).1
    ⟨"a", "A", PROCEDURE, some "r", 0, ⟨1, 2⟩, true⟩ (by decide) "r"
    (by decide) (by decide)

/-! ## C8: edges are filed under the parent of their source -/

/-- **C8** (amended).  Every flat edge record whose source node resolves to a
non-null **and non-empty** parent id is appended, in document order, to the
connection list of the canvas level keyed by that parent id, and that level
exists in the result; an edge whose source has no resolvable parent — or
whose resolved parent id is the empty string, which the JS truthiness test
`if (!parentId) continue` also treats as unresolvable — is silently dropped
and belongs to no level; the function never fails on such input. -/
theorem c8_edges_filed_by_source_parent (w : ProcedureLogicWorkflow) :
    (∀ p s, recGet (workflowToCanvasStateMap w) p = some s →
       s.edges = w.edges.filter (fun e => decide (edgeLevel w.nodes e = some p)))
    ∧ (∀ e ∈ w.edges, ∀ p, edgeLevel w.nodes e = some p →
       (recGet (workflowToCanvasStateMap w) p).isSome) := by
  constructor
  · intro p s hs
    unfold workflowToCanvasStateMap at hs
    rw [edgePhase_recGet, nodePhase_recGet] at hs
    obtain ⟨_, _, h3⟩ := edgeFold_fields _ _ _ hs
    rw [h3, levelFoldN_edges]
    simp [emptyLevel, recGet]
  · intro e hmem p hp
    unfold workflowToCanvasStateMap
    rw [edgePhase_recGet]
    apply edgeFold_isSome_of_ne_nil
    intro hnil
    have hin : e ∈ w.edges.filter (fun x => decide (edgeLevel w.nodes x = some p)) :=
      List.mem_filter.mpr ⟨hmem, by simp [hp]⟩
    rw [hnil] at hin
    simp at hin

/-- A document with one placed child and one edge at level `"r"`. -/
def c8Doc : ProcedureLogicWorkflow :=
  { nodes := [⟨"r", "R", RECIPE, none, 0, ⟨300, 40⟩, true⟩,
              ⟨"a", "A", PROCEDURE, some "r", 0, ⟨1, 2⟩, true⟩,
              ⟨"b", "B", PROCEDURE, some "r", 1, ⟨3, 4⟩, true⟩],
    edges := [⟨"e1", "a", "b"⟩] }

/-- Witness for `c8_edges_filed_by_source_parent`: the edge from `"a"` lands in
level `"r"`'s connection list. -/
theorem c8_edges_filed_witness :
    (∀ s, recGet (workflowToCanvasStateMap c8Doc) "r" = some s →
      s.edges = c8Doc.edges.filter (fun e => decide (edgeLevel c8Doc.nodes e = some "r"))) ∧
    (recGet (workflowToCanvasStateMap c8Doc) "r").isSome :=
  ⟨fun s hs => (c8_edges_filed_by_source_parent c8Doc).1 "r" s hs,
   (c8_edges_filed_by_source_parent c8Doc).2 ⟨"e1", "a", "b"⟩ (by decide) "r" (by decide)⟩

/-- A document whose only node has the *empty string* as its (non-null)
parent id, with an edge out of that node. -/
def c8EmptyDoc : ProcedureLogicWorkflow :=
  { nodes := [⟨"a", "A", PROCEDURE, some "", 0, ⟨0, 0⟩, false⟩],
    edges := [⟨"e", "a", "b"⟩] }

/-- **C8 counterexample.**  The edge `"e"` has a source whose `parentId` is
resolvable and non-null (`some ""`): the node loop even creates the level
keyed `""`.  Yet the edge loop drops the edge (`if (!parentId) continue` is
taken for the empty string), so the level's connection list stays empty,
refuting the claim that every such edge is appended. -/
theorem c8_empty_parent_counterexample :
    lastParentOf c8EmptyDoc.nodes "a" = some "" ∧
    recGet (workflowToCanvasStateMap c8EmptyDoc) "" =
      some { placedIds := [], nodePositions := [], edges := [] } := by
  decide

/-! ## C5: terminal markers (modelled from the spec)

The checked-in `types.ts` has no terminal-marker handling, but
`WorkflowCanvas.tsx` imports `TerminalNodeState` and `TerminalKind` from
`./types` and reads `terminalNodes` off the level state, so the
terminal-enabled variant of the canvas types and of the flatten/rebuild pair
exists in the repository and is missing from the checked-in sources.  The
definitions below are modelled from spec sections 3, 4.4 and 4.5. -/

/-- Modelled from the spec: the kind of a fixed terminal marker, the "start"
or "end" visual anchor of one level (`TerminalKind` in `WorkflowCanvas.tsx`,
values `begin`/`end`). -/
inductive TerminalKind where
  | beginT
  | endT
deriving DecidableEq, Repr

/-- Modelled from the spec: a terminal marker carrying its own id, kind and
position (`TerminalNodeState` as consumed by `WorkflowCanvas.tsx`). -/
structure TerminalNodeState where
  id : String
  kind : TerminalKind
  position : Position
deriving DecidableEq, Repr

/-- Modelled from the spec: `CanvasLevelState` extended with the level's
optional terminal markers. -/
structure CanvasLevelStateT where
  placedIds : List String
  nodePositions : List (String × Position)
  edges : List WorkflowEdge
  terminalNodes : List TerminalNodeState
deriving DecidableEq, Repr

abbrev CanvasStateMapT := List (String × CanvasLevelStateT)

def emptyLevelT : CanvasLevelStateT :=
  { placedIds := [], nodePositions := [], edges := [], terminalNodes := [] }

/-- Modelled from the spec: the terminal-id convention by which rebuild
recognizes terminal-marker records (the spec fixes only that such a
convention on ids exists). -/
def isTerminalId (s : String) : Bool := "terminal-".data.isPrefixOf s.data

def terminalKindOfId (s : String) : TerminalKind :=
  if "terminal-begin".data.isPrefixOf s.data then .beginT else .endT

/-- Modelled from the spec: the flat node record emitted for a terminal
marker of the level keyed `key`: `parentId` is the level's key and `placed`
is true by convention; the spec fixes nothing else, so name, kind and order
take fixed neutral values. -/
def mkTerminalRecord (key : String) (m : TerminalNodeState) : WorkflowNode :=
  { id := m.id, name := "", type := PHASE, parentId := some key, order := 0,
    position := m.position, placed := true }

/-- `mkRecord` over the terminal-enabled canvas type. -/
def mkRecordT (csm : CanvasStateMapT) (pid : Option String) (i : Nat)
    (t : HierarchyNode) : WorkflowNode :=
  let parentCanvas : Option CanvasLevelStateT :=
    match pid with
    | none => none
    | some p => recGet csm p
  { id := t.id, name := t.name, type := t.type, parentId := pid,
    order := (i : Int),
    position :=
      (parentCanvas.bind (fun s => recGet s.nodePositions t.id)).getD
        (fallbackPos (i : Int)),
    placed :=
      match pid with
      | none => true
      | some _ => (parentCanvas.map (fun s => s.placedIds.contains t.id)).getD false }

mutual

/-- Modelled from the spec: the node records emitted by the terminal-enabled
flatten — each visited node's own record, then the terminal markers of its
own level (if that level exists), then its children, in order. -/
def flatNodesT (csm : CanvasStateMapT) (pid : Option String) (i : Nat) :
    HierarchyNode → List WorkflowNode
  | .mk nid nm ty cs =>
      mkRecordT csm pid i (.mk nid nm ty cs) ::
        ((match recGet csm nid with
          | some st => st.terminalNodes.map (mkTerminalRecord nid)
          | none => []) ++ flatNodesListT csm nid 0 cs)

def flatNodesListT (csm : CanvasStateMapT) (p : String) (i : Nat) :
    List HierarchyNode → List WorkflowNode
  | [] => []
  | c :: rest => flatNodesT csm (some p) i c ++ flatNodesListT csm p (i + 1) rest

end

mutual

def flatEdgesT (csm : CanvasStateMapT) : HierarchyNode → List WorkflowEdge
  | .mk nid _ _ cs =>
      (match recGet csm nid with
       | some s => s.edges
       | none => []) ++ flatEdgesListT csm cs

def flatEdgesListT (csm : CanvasStateMapT) : List HierarchyNode → List WorkflowEdge
  | [] => []
  | c :: rest => flatEdgesT csm c ++ flatEdgesListT csm rest

end

/-- Modelled from the spec: the terminal-enabled `treeToWorkflow`. -/
def treeToWorkflowT (root : HierarchyNode) (canvasStateMap : CanvasStateMapT) :
    ProcedureLogicWorkflow :=
  { nodes := flatNodesT canvasStateMap none 0 root,
    edges := flatEdgesT canvasStateMap root }

/-- Modelled from the spec: the node loop of the terminal-enabled rebuild —
terminal-marker records (recognized by the id convention) are folded into the
level's terminal-marker list instead of its ordinary placed set. -/
def wcsmNodeStepT (m : CanvasStateMapT) (wn : WorkflowNode) : CanvasStateMapT :=
  match wn.parentId with
  | none => m
  | some p =>
      let m1 := match recGet m p with
        | some _ => m
        | none => recSet m p emptyLevelT
      let st := (recGet m1 p).getD emptyLevelT
      if wn.placed then
        if isTerminalId wn.id then
          recSet m1 p
            { st with terminalNodes := st.terminalNodes ++
                [⟨wn.id, terminalKindOfId wn.id, wn.position⟩] }
        else
          recSet m1 p
            { st with placedIds := st.placedIds ++ [wn.id],
                      nodePositions := recSet st.nodePositions wn.id wn.position }
      else m1

/-- Modelled from the spec: the edge loop of the terminal-enabled rebuild
(same resolution as the checked-in `workflowToCanvasStateMap`). -/
def wcsmEdgeStepT (ns : List WorkflowNode) (m : CanvasStateMapT)
    (we : WorkflowEdge) : CanvasStateMapT :=
  match lastParentOf ns we.source with
  | none => m
  | some p =>
      if p = "" then m
      else
        let m1 := match recGet m p with
          | some _ => m
          | none => recSet m p emptyLevelT
        let st := (recGet m1 p).getD emptyLevelT
        recSet m1 p { st with edges := st.edges ++ [we] }

/-- Modelled from the spec: the terminal-enabled `workflowToCanvasStateMap`. -/
def workflowToCanvasStateMapT (workflow : ProcedureLogicWorkflow) :
    CanvasStateMapT :=
  workflow.edges.foldl (wcsmEdgeStepT workflow.nodes)
    (workflow.nodes.foldl wcsmNodeStepT [])

theorem recGet_recSet_cases {α : Type} (m : List (String × α)) (k key : String)
    (v : α) (st : α) (h : recGet (recSet m k v) key = some st) :
    (key = k ∧ st = v) ∨ (key ≠ k ∧ recGet m key = some st) := by
  by_cases hk : key = k
  · subst hk
    rw [recGet_recSet_self] at h
    injection h with h
    exact Or.inl ⟨rfl, h.symm⟩
  · rw [recGet_recSet_ne _ _ _ _ hk] at h
    exact Or.inr ⟨hk, h⟩

/-- Every terminal marker of a level belonging to a subtree is emitted by the
terminal-enabled flatten. -/
theorem flatNodesT_terminal_mem (csm : CanvasStateMapT) :
    ∀ t pid i S, S ∈ allSubtrees t → ∀ st, recGet csm S.id = some st →
      ∀ m ∈ st.terminalNodes, mkTerminalRecord S.id m ∈ flatNodesT csm pid i t := by
  intro t
  induction t using HierarchyNode.ind' with
  | h nid nm ty cs ih =>
      intro pid i S hS st hst m hm
      rw [allSubtrees] at hS
      rw [flatNodesT]
      rcases List.mem_cons.mp hS with h | h
      · subst h
        refine List.mem_cons_of_mem _ (List.mem_append.mpr (Or.inl ?_))
        have hid : (HierarchyNode.mk nid nm ty cs).id = nid := rfl
        rw [hid] at hst
        rw [hst]
        exact List.mem_map.mpr ⟨m, hm, rfl⟩
      · obtain ⟨c, hc, hSc⟩ := allSubtreesList_mem_split cs S h
        refine List.mem_cons_of_mem _ (List.mem_append.mpr (Or.inr ?_))
        have aux : ∀ l j, c ∈ l → mkTerminalRecord S.id m ∈ flatNodesListT csm nid j l := by
          intro l
          induction l with
          | nil => intro _ hc'; simp at hc'
          | cons c0 rest ihl =>
              intro j hc'
              rw [flatNodesListT, List.mem_append]
              rcases List.mem_cons.mp hc' with he | he
              · exact Or.inl (ih c0 (he ▸ hc) (some nid) j S (he ▸ hSc) st hst m hm)
              · exact Or.inr (ihl (j + 1) he)
        exact aux cs 0 hc

/-- One rebuild node step preserves a terminal-marker membership fact. -/
theorem wcsmNodeStepT_terminal_persist (m : CanvasStateMapT) (wn : WorkflowNode)
    (p tid : String) (st : CanvasLevelStateT)
    (h : recGet m p = some st) (hmem : tid ∈ st.terminalNodes.map (fun x => x.id)) :
    ∃ st', recGet (wcsmNodeStepT m wn) p = some st' ∧
      tid ∈ st'.terminalNodes.map (fun x => x.id) := by
  rw [wcsmNodeStepT]
  cases hpid : wn.parentId with
  | none => exact ⟨st, h, hmem⟩
  | some q =>
      by_cases hq : p = q
      · subst hq
        simp only [h]
        cases hpl : wn.placed
        · exact ⟨st, h, hmem⟩
        · by_cases hterm : isTerminalId wn.id = true
          · rw [if_pos rfl, if_pos hterm, recGet_recSet_self]
            refine ⟨_, rfl, ?_⟩
            simp only [List.map_append, List.mem_append]
            exact Or.inl hmem
          · rw [if_pos rfl, if_neg hterm, recGet_recSet_self]
            exact ⟨_, rfl, hmem⟩
      · have hne : p ≠ q := hq
        cases hm1 : recGet m q with
        | some st1 =>
            simp only [hm1]
            cases hpl : wn.placed
            · exact ⟨st, h, hmem⟩
            · by_cases hterm : isTerminalId wn.id = true
              · rw [if_pos rfl, if_pos hterm, recGet_recSet_ne _ _ _ _ hne]
                exact ⟨st, h, hmem⟩
              · rw [if_pos rfl, if_neg hterm, recGet_recSet_ne _ _ _ _ hne]
                exact ⟨st, h, hmem⟩
        | none =>
            simp only [hm1]
            cases hpl : wn.placed
            · rw [if_neg (by simp)]
              rw [recGet_recSet_ne _ _ _ _ hne]
              exact ⟨st, h, hmem⟩
            · rw [if_pos rfl]
              rw [recGet_recSet_self]
              by_cases hterm : isTerminalId wn.id = true
              · rw [if_pos hterm, recGet_recSet_ne _ _ _ _ hne,
                  recGet_recSet_ne _ _ _ _ hne]
                exact ⟨st, h, hmem⟩
              · rw [if_neg hterm, recGet_recSet_ne _ _ _ _ hne,
                  recGet_recSet_ne _ _ _ _ hne]
                exact ⟨st, h, hmem⟩

/-- One rebuild edge step preserves a terminal-marker membership fact. -/
theorem wcsmEdgeStepT_terminal_persist (ns : List WorkflowNode)
    (m : CanvasStateMapT) (we : WorkflowEdge) (p tid : String)
    (st : CanvasLevelStateT)
    (h : recGet m p = some st) (hmem : tid ∈ st.terminalNodes.map (fun x => x.id)) :
    ∃ st', recGet (wcsmEdgeStepT ns m we) p = some st' ∧
      tid ∈ st'.terminalNodes.map (fun x => x.id) := by
  rw [wcsmEdgeStepT]
  split
  · exact ⟨st, h, hmem⟩
  · split
    · exact ⟨st, h, hmem⟩
    · rename_i q hlp hqe
      by_cases hq : p = q
      · subst hq
        cases hmq : recGet m p with
        | some st0 =>
            have hst0 : st0 = st := by
              rw [hmq] at h
              injection h
            subst hst0
            simp only [hmq, recGet_recSet_self]
            refine ⟨_, rfl, ?_⟩
            simpa using hmem
        | none =>
            rw [hmq] at h
            cases h
      · cases hmq : recGet m q with
        | some st0 =>
            simp only [hmq, recGet_recSet_ne _ _ _ _ hq]
            exact ⟨st, h, hmem⟩
        | none =>
            simp only [hmq, recGet_recSet_self, recGet_recSet_ne _ _ _ _ hq]
            exact ⟨st, h, hmem⟩

theorem nodeFoldT_terminal_persist (ns : List WorkflowNode) :
    ∀ (m : CanvasStateMapT) (p tid : String) (st : CanvasLevelStateT),
      recGet m p = some st → tid ∈ st.terminalNodes.map (fun x => x.id) →
      ∃ st', recGet (ns.foldl wcsmNodeStepT m) p = some st' ∧
        tid ∈ st'.terminalNodes.map (fun x => x.id) := by
  induction ns with
  | nil => intro m p tid st h hmem; exact ⟨st, h, hmem⟩
  | cons wn rest ih =>
      intro m p tid st h hmem
      rw [List.foldl_cons]
      obtain ⟨st1, h1, hm1⟩ := wcsmNodeStepT_terminal_persist m wn p tid st h hmem
      exact ih _ p tid st1 h1 hm1

theorem edgeFoldT_terminal_persist (ns : List WorkflowNode) (es : List WorkflowEdge) :
    ∀ (m : CanvasStateMapT) (p tid : String) (st : CanvasLevelStateT),
      recGet m p = some st → tid ∈ st.terminalNodes.map (fun x => x.id) →
      ∃ st', recGet (es.foldl (wcsmEdgeStepT ns) m) p = some st' ∧
        tid ∈ st'.terminalNodes.map (fun x => x.id) := by
  induction es with
  | nil => intro m p tid st h hmem; exact ⟨st, h, hmem⟩
  | cons we rest ih =>
      intro m p tid st h hmem
      rw [List.foldl_cons]
      obtain ⟨st1, h1, hm1⟩ := wcsmEdgeStepT_terminal_persist ns m we p tid st h hmem
      exact ih _ p tid st1 h1 hm1

/-- Processing a placed terminal-marker record files its id in its parent's
terminal-marker list. -/
theorem wcsmNodeStepT_terminal_insert (m : CanvasStateMapT) (wn : WorkflowNode)
    (p : String) (hpid : wn.parentId = some p) (hpl : wn.placed = true)
    (hterm : isTerminalId wn.id = true) :
    ∃ st', recGet (wcsmNodeStepT m wn) p = some st' ∧
      wn.id ∈ st'.terminalNodes.map (fun x => x.id) := by
  rw [wcsmNodeStepT, hpid]
  cases hm : recGet m p with
  | some st =>
      simp only [hm, hpl, hterm, if_true, recGet_recSet_self]
      refine ⟨_, rfl, ?_⟩
      simp
  | none =>
      simp only [hm, hpl, hterm, if_true, recGet_recSet_self]
      refine ⟨_, rfl, ?_⟩
      simp

/-- No level of the rebuilt map ever records a terminal id in its ordinary
placed-id set: invariant of both rebuild loops. -/
def NoTerminalPlaced (m : CanvasStateMapT) : Prop :=
  ∀ p st, recGet m p = some st → ∀ tid ∈ st.placedIds, isTerminalId tid = false

theorem noTerminalPlaced_nil : NoTerminalPlaced [] := by
  intro p st h
  simp [recGet] at h

theorem wcsmNodeStepT_noTerminalPlaced (m : CanvasStateMapT) (wn : WorkflowNode)
    (h : NoTerminalPlaced m) : NoTerminalPlaced (wcsmNodeStepT m wn) := by
  intro p st hst tid htid
  rw [wcsmNodeStepT] at hst
  cases hpid : wn.parentId with
  | none =>
      rw [hpid] at hst
      exact h p st hst tid htid
  | some q =>
      rw [hpid] at hst
      simp only [] at hst
      generalize hM1 : (match recGet m q with
        | some _ => m
        | none => recSet m q emptyLevelT) = m1 at hst
      have hm1 : ∀ key st', recGet m1 key = some st' →
          ∀ tid' ∈ st'.placedIds, isTerminalId tid' = false := by
        intro key st' hst' tid' htid'
        rw [← hM1] at hst'
        cases hmq : recGet m q with
        | some s0 =>
            rw [hmq] at hst'
            exact h key st' hst' tid' htid'
        | none =>
            rw [hmq] at hst'
            rcases recGet_recSet_cases m q key emptyLevelT st' hst' with
              ⟨_, he⟩ | ⟨_, hget⟩
            · subst he
              simp [emptyLevelT] at htid'
            · exact h key st' hget tid' htid'
      cases hpl : wn.placed
      · rw [hpl, if_neg (by simp)] at hst
        exact hm1 p st hst tid htid
      · rw [hpl, if_pos (by rfl)] at hst
        by_cases hterm : isTerminalId wn.id = true
        · rw [if_pos hterm] at hst
          rcases recGet_recSet_cases m1 q p _ st hst with ⟨hpq, he⟩ | ⟨_, hget⟩
          · subst he
            simp only at htid
            cases hq1 : recGet m1 q with
            | some s1 =>
                rw [hq1] at htid
                exact hm1 q s1 hq1 tid (by simpa using htid)
            | none =>
                rw [hq1] at htid
                simp [emptyLevelT] at htid
          · exact hm1 p st hget tid htid
        · rw [if_neg hterm] at hst
          rcases recGet_recSet_cases m1 q p _ st hst with ⟨hpq, he⟩ | ⟨_, hget⟩
          · subst he
            simp only at htid
            cases hq1 : recGet m1 q with
            | some s1 =>
                rw [hq1] at htid
                simp only [Option.getD_some, List.mem_append,
                  List.mem_singleton] at htid
                rcases htid with htid | htid
                · exact hm1 q s1 hq1 tid htid
                · subst htid
                  simpa using hterm
            | none =>
                rw [hq1] at htid
                simp only [Option.getD_none, emptyLevelT, List.nil_append,
                  List.mem_singleton] at htid
                subst htid
                simpa using hterm
          · exact hm1 p st hget tid htid

theorem wcsmEdgeStepT_noTerminalPlaced (ns : List WorkflowNode)
    (m : CanvasStateMapT) (we : WorkflowEdge)
    (h : NoTerminalPlaced m) : NoTerminalPlaced (wcsmEdgeStepT ns m we) := by
  intro p st hst tid htid
  rw [wcsmEdgeStepT] at hst
  cases hlp : lastParentOf ns we.source with
  | none =>
      rw [hlp] at hst
      exact h p st hst tid htid
  | some q =>
      rw [hlp] at hst
      simp only [] at hst
      by_cases hqe : q = ""
      · rw [if_pos hqe] at hst
        exact h p st hst tid htid
      · rw [if_neg hqe] at hst
        generalize hM1 : (match recGet m q with
          | some _ => m
          | none => recSet m q emptyLevelT) = m1 at hst
        have hm1 : ∀ key st', recGet m1 key = some st' →
            ∀ tid' ∈ st'.placedIds, isTerminalId tid' = false := by
          intro key st' hst' tid' htid'
          rw [← hM1] at hst'
          cases hmq : recGet m q with
          | some s0 =>
              rw [hmq] at hst'
              exact h key st' hst' tid' htid'
          | none =>
              rw [hmq] at hst'
              rcases recGet_recSet_cases m q key emptyLevelT st' hst' with
                ⟨_, he⟩ | ⟨_, hget⟩
              · subst he
                simp [emptyLevelT] at htid'
              · exact h key st' hget tid' htid'
        rcases recGet_recSet_cases m1 q p _ st hst with ⟨hpq, he⟩ | ⟨_, hget⟩
        · subst he
          simp only at htid
          cases hq1 : recGet m1 q with
          | some s1 =>
              rw [hq1] at htid
              exact hm1 q s1 hq1 tid (by simpa using htid)
          | none =>
              rw [hq1] at htid
              simp [emptyLevelT] at htid
        · exact hm1 p st hget tid htid

theorem nodeFoldT_noTerminalPlaced (ns : List WorkflowNode) :
    ∀ m : CanvasStateMapT, NoTerminalPlaced m →
      NoTerminalPlaced (ns.foldl wcsmNodeStepT m) := by
  induction ns with
  | nil => intro m h; exact h
  | cons wn rest ih =>
      intro m h
      rw [List.foldl_cons]
      exact ih _ (wcsmNodeStepT_noTerminalPlaced m wn h)

theorem edgeFoldT_noTerminalPlaced (ns : List WorkflowNode)
    (es : List WorkflowEdge) :
    ∀ m : CanvasStateMapT, NoTerminalPlaced m →
      NoTerminalPlaced (es.foldl (wcsmEdgeStepT ns) m) := by
  induction es with
  | nil => intro m h; exact h
  | cons we rest ih =>
      intro m h
      rw [List.foldl_cons]
      exact ih _ (wcsmEdgeStepT_noTerminalPlaced ns m we h)

/-- The rebuilt map never files a terminal id in an ordinary placed-id set. -/
theorem workflowToCanvasStateMapT_noTerminalPlaced (w : ProcedureLogicWorkflow) :
    NoTerminalPlaced (workflowToCanvasStateMapT w) := by
  rw [workflowToCanvasStateMapT]
  exact edgeFoldT_noTerminalPlaced w.nodes w.edges _
    (nodeFoldT_noTerminalPlaced w.nodes [] noTerminalPlaced_nil)

/-- C5: for every terminal-enabled canvas-state map, the flatten emits each
terminal marker of each level (keyed by a tree node's id) as a flat node
record whose `parentId` is that level's key and whose `placed` flag is true,
carrying the marker's id and position; and the rebuild recognizes every
placed flat record whose id follows the terminal-id convention, filing its
id into the parent level's terminal-marker list and into no level's
ordinary placed-id set. -/
theorem c5_terminal_markers :
    (∀ (T : HierarchyNode) (C : CanvasStateMapT) (S : HierarchyNode),
      S ∈ allSubtrees T → ∀ st, recGet C S.id = some st →
      ∀ tm ∈ st.terminalNodes,
        ∃ wn ∈ (treeToWorkflowT T C).nodes,
          wn.id = tm.id ∧ wn.parentId = some S.id ∧ wn.placed = true ∧
          wn.position = tm.position) ∧
    (∀ (w : ProcedureLogicWorkflow) (wn : WorkflowNode) (p : String),
      wn ∈ w.nodes → wn.parentId = some p → wn.placed = true →
      isTerminalId wn.id = true →
      (∃ st, recGet (workflowToCanvasStateMapT w) p = some st ∧
        wn.id ∈ st.terminalNodes.map (fun x => x.id)) ∧
      (∀ q st, recGet (workflowToCanvasStateMapT w) q = some st →
        wn.id ∉ st.placedIds)) := by
  constructor
  · intro T C S hS st hst tm htm
    exact ⟨mkTerminalRecord S.id tm,
      flatNodesT_terminal_mem C T none 0 S hS st hst tm htm, rfl, rfl, rfl, rfl⟩
  · intro w wn p hmem hpid hpl hterm
    constructor
    · obtain ⟨l1, l2, hsplit⟩ := List.append_of_mem hmem
      obtain ⟨st1, h1, hm1⟩ :=
        wcsmNodeStepT_terminal_insert (l1.foldl wcsmNodeStepT []) wn p hpid hpl hterm
      have hnodes : w.nodes.foldl wcsmNodeStepT [] =
          l2.foldl wcsmNodeStepT (wcsmNodeStepT (l1.foldl wcsmNodeStepT []) wn) := by
        rw [hsplit, List.foldl_append, List.foldl_cons]
      obtain ⟨st2, h2, hm2⟩ := nodeFoldT_terminal_persist l2 _ p wn.id st1 h1 hm1
      rw [← hnodes] at h2
      obtain ⟨st3, h3, hm3⟩ :=
        edgeFoldT_terminal_persist w.nodes w.edges _ p wn.id st2 h2 hm2
      exact ⟨st3, h3, hm3⟩
    · intro q st hq hin
      have hfalse := workflowToCanvasStateMapT_noTerminalPlaced w q st hq wn.id hin
      rw [hterm] at hfalse
      simp at hfalse

def c5T : HierarchyNode := .mk "r" "Root" RECIPE []

def c5C : CanvasStateMapT :=
  [("r", { placedIds := [], nodePositions := [], edges := [],
           terminalNodes := [⟨"terminal-begin-r", .beginT, ⟨1, 2⟩⟩] })]

def c5W : ProcedureLogicWorkflow :=
  { nodes := [{ id := "terminal-begin-r", name := "", type := PHASE,
                parentId := some "r", order := 0, position := ⟨5, 7⟩,
                placed := true }],
    edges := [] }

theorem c5_terminal_markers_witness :
    (∃ wn ∈ (treeToWorkflowT c5T c5C).nodes,
      wn.id = "terminal-begin-r" ∧ wn.parentId = some "r" ∧ wn.placed = true ∧
      wn.position = ⟨1, 2⟩) ∧
    (∃ st, recGet (workflowToCanvasStateMapT c5W) "r" = some st ∧
      "terminal-begin-r" ∈ st.terminalNodes.map (fun x => x.id)) ∧
    (∀ q st, recGet (workflowToCanvasStateMapT c5W) q = some st →
      "terminal-begin-r" ∉ st.placedIds) := by
  refine ⟨?_, ?_⟩
  · exact c5_terminal_markers.1 c5T c5C c5T (by decide)
      ⟨[], [], [], [⟨"terminal-begin-r", .beginT, ⟨1, 2⟩⟩]⟩ (by decide)
      ⟨"terminal-begin-r", .beginT, ⟨1, 2⟩⟩ (by decide)
  · exact c5_terminal_markers.2 c5W
      { id := "terminal-begin-r", name := "", type := PHASE,
        parentId := some "r", order := 0, position := ⟨5, 7⟩, placed := true }
      "r" (by decide) (by decide) (by decide) (by decide)
